import Mathlib

/-!
Verification of the gemini-antiblock proxy (Cloudflare worker, JavaScript)
against its natural-language specification.

Strings from the JavaScript source are modelled as `List Char`.  Each
definition below is a shallow embedding of a function of the repository
(`src/constants.js`, `src/core.js`, `src/handlers.js`); the doc comment of
every definition names the function it embeds.  Functions that the current
`handlers.js` imports but that are absent from the `core.js` revision shipped
in this tree are modelled from the specification and carry a doc comment
starting with `Modelled from the spec:`.
-/

namespace GeminiAntiblock

/-- Characters matched by the JavaScript regular-expression class `\s`
(also the set removed by `String.prototype.trim`): tab, line feed, vertical
tab, form feed, carriage return, space, NBSP, the Unicode space separators,
line/paragraph separators and the BOM. -/
def jsSpace (c : Char) : Bool :=
  ([0x9, 0xA, 0xB, 0xC, 0xD, 0x20, 0xA0, 0x1680, 0x2000, 0x2001, 0x2002, 0x2003,
    0x2004, 0x2005, 0x2006, 0x2007, 0x2008, 0x2009, 0x200A, 0x2028, 0x2029, 0x202F,
    0x205F, 0x3000, 0xFEFF] : List Nat).contains c.toNat

/-- JavaScript `String.prototype.trim`: remove `jsSpace` characters from both
ends of the string. -/
def jsTrim (l : List Char) : List Char :=
  ((l.dropWhile jsSpace).reverse.dropWhile jsSpace).reverse

/-- `BEGIN_TOKEN` from `src/constants.js`. -/
def BEGIN_TOKEN : List Char := "[RESPONSE_BEGIN]".toList

/-- `FINISHED_TOKEN` from `src/constants.js`. -/
def FINISHED_TOKEN : List Char := "[RESPONSE_FINISHED]".toList

/-- `INCOMPLETE_TOKEN` from `src/constants.js`. -/
def INCOMPLETE_TOKEN : List Char := "[RESPONSE_NOT_FINISHED]".toList

/-- JavaScript `haystack.includes(pat)`: does `pat` occur as a contiguous
substring of the list? -/
def containsSeq (pat : List Char) : List Char → Bool
  | [] => pat.isEmpty
  | c :: rest => pat.isPrefixOf (c :: rest) || containsSeq pat rest

/-- `pat` occurs in `l` starting at index `p`. -/
def occursAt (pat l : List Char) (p : Nat) : Prop :=
  pat <+: l.drop p

instance instDecidableOccursAt (pat l : List Char) (p : Nat) :
    Decidable (occursAt pat l p) :=
  inferInstanceAs (Decidable (pat <+: l.drop p))

theorem containsSeq_iff (pat l : List Char) :
    containsSeq pat l = true ↔ ∃ p, occursAt pat l p := by
  induction l with
  | nil =>
    simp only [containsSeq, List.isEmpty_iff, occursAt, List.drop_nil]
    constructor
    · rintro rfl; exact ⟨0, List.prefix_refl _⟩
    · rintro ⟨p, hp⟩; exact List.prefix_nil.mp hp
  | cons c rest ih =>
    simp only [containsSeq, Bool.or_eq_true, List.isPrefixOf_iff_prefix, ih]
    constructor
    · rintro (h | ⟨p, hp⟩)
      · exact ⟨0, h⟩
      · exact ⟨p + 1, hp⟩
    · rintro ⟨p, hp⟩
      cases p with
      | zero => exact Or.inl hp
      | succ n => exact Or.inr ⟨n, hp⟩

theorem occursAt_append_left {pat x : List Char} (y : List Char) {p : Nat}
    (h : occursAt pat x p) :
    occursAt pat (x ++ y) p := by
  unfold occursAt at h ⊢
  rw [List.drop_append_eq_append_drop]
  rcases h with ⟨t, ht⟩
  refine ⟨t ++ y.drop (p - x.length), ?_⟩
  rw [← ht, List.append_assoc]

theorem occursAt_append_right {pat y : List Char} (x : List Char) {p : Nat}
    (h : occursAt pat y p) : occursAt pat (x ++ y) (x.length + p) := by
  unfold occursAt at h ⊢
  rwa [List.drop_append_eq_append_drop, Nat.add_comm x.length p,
    List.drop_of_length_le (by omega), List.nil_append, Nat.add_sub_cancel]

theorem occursAt_length {pat l : List Char} {p : Nat} (hpat : pat ≠ [])
    (h : occursAt pat l p) : p + pat.length ≤ l.length := by
  unfold occursAt at h
  have hlen := h.length_le
  rw [List.length_drop] at hlen
  by_cases hpl : p ≤ l.length
  · omega
  · exfalso
    rw [List.drop_of_length_le (by omega)] at h
    exact hpat (List.prefix_nil.mp h)

theorem prefix_of_prefix_append {α : Type} {l₁ l₂ l₃ : List α}
    (h : l₁ <+: l₂ ++ l₃) (hl : l₁.length ≤ l₂.length) : l₁ <+: l₂ := by
  rw [List.prefix_iff_eq_take] at h ⊢
  rw [List.take_append_eq_append_take, Nat.sub_eq_zero_of_le hl,
    List.take_zero, List.append_nil] at h
  exact h

theorem occursAt_of_append_left {pat x y : List Char} {p : Nat}
    (h : occursAt pat (x ++ y) p) (hp : p + pat.length ≤ x.length) :
    occursAt pat x p := by
  unfold occursAt at h ⊢
  rw [List.drop_append_eq_append_drop] at h
  exact prefix_of_prefix_append h (by rw [List.length_drop]; omega)

/-- JavaScript `l.split(pat)[0]`: the segment of `l` before the first
occurrence of `pat` (all of `l` when there is none). -/
def splitPre (pat : List Char) : List Char → List Char
  | [] => []
  | c :: rest => if pat.isPrefixOf (c :: rest) then [] else c :: splitPre pat rest

/-- The remainder of `l` after the first occurrence of `pat`
(empty when there is none). -/
def afterFirst (pat : List Char) : List Char → List Char
  | [] => []
  | c :: rest => if pat.isPrefixOf (c :: rest) then (c :: rest).drop pat.length
      else afterFirst pat rest

/-- JavaScript `l.split(pat)[1]`: the segment between the first and the
second occurrence of `pat` (up to the end of `l` when there is no second
occurrence). -/
def jsSplit1 (pat l : List Char) : List Char :=
  splitPre pat (afterFirst pat l)

theorem splitPre_prefix (pat l : List Char) : splitPre pat l <+: l := by
  induction l with
  | nil => exact List.prefix_refl _
  | cons c rest ih =>
    unfold splitPre
    by_cases h : pat.isPrefixOf (c :: rest)
    · simp [h]
    · simpa [h] using ih

theorem containsSeq_splitPre (pat l : List Char) (hpat : pat ≠ []) :
    containsSeq pat (splitPre pat l) = false := by
  induction l with
  | nil => simpa [splitPre, containsSeq, List.isEmpty_iff]
  | cons c rest ih =>
    unfold splitPre
    by_cases h : pat.isPrefixOf (c :: rest)
    · simpa [h, containsSeq, List.isEmpty_iff]
    · simp only [h, if_false, containsSeq, ih, Bool.or_false]
      simp only [Bool.eq_false_iff, ne_eq, List.isPrefixOf_iff_prefix]
      rw [List.isPrefixOf_iff_prefix] at h
      intro hc
      rcases splitPre_prefix pat rest with ⟨t, ht⟩
      exact h (hc.trans ⟨t, by rw [List.cons_append, ht]⟩)

theorem containsSeq_mono {pat t : List Char} (u v : List Char)
    (h : containsSeq pat t = true) : containsSeq pat (u ++ t ++ v) = true := by
  rw [containsSeq_iff] at h ⊢
  rcases h with ⟨p, hp⟩
  refine ⟨u.length + p, ?_⟩
  rw [List.append_assoc]
  exact occursAt_append_right u (occursAt_append_left v hp)

theorem splitPre_eq_take {pat l : List Char} {p : Nat}
    (hocc : occursAt pat l p) (hleft : ∀ q, occursAt pat l q → p ≤ q) :
    splitPre pat l = l.take p := by
  induction l generalizing p with
  | nil => simp [splitPre]
  | cons c rest ih =>
    unfold splitPre
    by_cases h : pat.isPrefixOf (c :: rest)
    · have h0 : occursAt pat (c :: rest) 0 := List.isPrefixOf_iff_prefix.mp h
      have hp0 : p = 0 := Nat.le_zero.mp (hleft 0 h0)
      simp [h, hp0]
    · have hp0 : p ≠ 0 := by
        intro hp
        subst hp
        exact h (List.isPrefixOf_iff_prefix.mpr hocc)
      obtain ⟨p', rfl⟩ := Nat.exists_eq_succ_of_ne_zero hp0
      have hocc' : occursAt pat rest p' := hocc
      have hleft' : ∀ q, occursAt pat rest q → p' ≤ q := by
        intro q hq
        have : p' + 1 ≤ q + 1 := hleft (q + 1) hq
        omega
      simp [h, ih hocc' hleft', List.take_succ_cons]

/-- Does the regular expression `\s?TOKEN\s*$` used by `cleanFinalText`
match when anchored at the start of `l` and at the end of the string, with
the optional leading whitespace NOT taken?  That is: `l` is the token
followed only by whitespace. -/
def tokThenSpaces (l : List Char) : Bool :=
  FINISHED_TOKEN.isPrefixOf l && (l.drop FINISHED_TOKEN.length).all jsSpace

/-- Does the regular expression `\s?TOKEN\s*$` of `cleanFinalText` match at
the start of `l` (reaching the end of the whole string)? -/
def cleanMatchAt : List Char → Bool
  | [] => tokThenSpaces []
  | c :: t => tokThenSpaces (c :: t) || (jsSpace c && tokThenSpaces t)

/-- `cleanFinalText` from `src/core.js`:
`text.replace(new RegExp("\\s?" + escapedToken + "\\s*$"), "")`.
The regular-expression engine looks for the leftmost position where
`\s?[RESPONSE_FINISHED]\s*$` matches; since such a match always extends to
the end of the string, replacing it by the empty string truncates the text
at the match position. -/
def cleanFinalText : List Char → List Char
  | [] => []
  | c :: t => if cleanMatchAt (c :: t) then [] else c :: cleanFinalText t

theorem all_jsSpace_drop_rbracket (l : List Char) (n : Nat)
    (h : ((l ++ [']']).drop n).all jsSpace = true) : l.length < n := by
  by_contra hn
  push_neg at hn
  rw [List.drop_append_eq_append_drop, Nat.sub_eq_zero_of_le hn, List.drop_zero,
    List.all_append] at h
  have : jsSpace ']' = true := by
    have := (Bool.and_eq_true _ _ |>.mp h).2
    simpa [List.all_cons] using this
  exact absurd this (by decide)

theorem tokThenSpaces_append (u : List Char) (hu : u ≠ []) :
    tokThenSpaces (u ++ FINISHED_TOKEN) = false := by
  by_contra hts
  rw [Bool.not_eq_false, tokThenSpaces, Bool.and_eq_true] at hts
  have hsplit : u ++ FINISHED_TOKEN = (u ++ FINISHED_TOKEN.dropLast) ++ [']'] := by
    rw [List.append_assoc]
    congr 1
  rw [hsplit] at hts
  have hlen := all_jsSpace_drop_rbracket _ _ hts.2
  rw [List.length_append] at hlen
  have h18 : FINISHED_TOKEN.dropLast.length = 18 := by decide
  have h19 : FINISHED_TOKEN.length = 19 := by decide
  rw [h18, h19] at hlen
  have : u.length = 0 := by omega
  exact hu (List.length_eq_zero.mp this)

/-- Amended claim C6: for every string `s` that does not end in a
(JavaScript) whitespace character, `cleanFinalText (s ++ FINISHED_TOKEN) = s`
(in particular leading whitespace of `s` is preserved).  The original claim
allowed `s` to end in whitespace, but the regex `\s?` also consumes one
whitespace character immediately before the token (see the counterexample). -/
theorem cleanFinalText_append_token (s : List Char)
    (hs : ∀ c, s.getLast? = some c → jsSpace c = false) :
    cleanFinalText (s ++ FINISHED_TOKEN) = s := by
  induction s with
  | nil =>
    show cleanFinalText FINISHED_TOKEN = []
    decide
  | cons c t ih =>
    rw [List.cons_append]
    unfold cleanFinalText
    rw [if_neg ?hmatch]
    case hmatch =>
      show ¬ cleanMatchAt (c :: (t ++ FINISHED_TOKEN)) = true
      unfold cleanMatchAt
      rw [Bool.or_eq_true]
      push_neg
      constructor
      · rw [← List.cons_append, tokThenSpaces_append (c :: t) (List.cons_ne_nil c t)]
        decide
      · cases t with
        | nil =>
          intro hcs
          rw [hs c rfl] at hcs
          simp at hcs
        | cons x t' =>
          intro hcs
          rw [tokThenSpaces_append (x :: t') (List.cons_ne_nil x t'), Bool.and_false] at hcs
          simp at hcs
    · congr 1
      apply ih
      intro d hd
      apply hs d
      cases t with
      | nil => exact absurd hd (by simp)
      | cons x t' => rw [List.getLast?_cons_cons]; exact hd

/-- Counterexample to claim C6 as stated: `s = " "` (a single space) does
not end in `FINISHED_TOKEN`, yet `cleanFinalText (s ++ FINISHED_TOKEN)` is
the empty string, not `s`: the regex `\s?` also deletes the space, so the
whitespace of `s` is not preserved. -/
theorem cleanFinalText_trailing_space_counterexample :
    FINISHED_TOKEN.isSuffixOf " ".toList = false ∧
    cleanFinalText (" ".toList ++ FINISHED_TOKEN) ≠ " ".toList := by
  constructor
  · decide
  · decide

/-- Witness for `cleanFinalText_append_token` at the concrete input "ab". -/
theorem cleanFinalText_append_token_witness :
    cleanFinalText ("ab".toList ++ FINISHED_TOKEN) = "ab".toList :=
  cleanFinalText_append_token "ab".toList (by
    intro c hc
    rw [show ("ab".toList).getLast? = some 'b' from rfl] at hc
    injection hc with h
    rw [← h]
    decide)

/-- The `thought` field of a part, as a JavaScript value: the source
distinguishes `thought === true` (strict equality) from mere truthiness, so
the model keeps the strict-boolean case separate from every other value,
of which only truthiness matters. -/
inductive JsVal where
  | undefined
  | jtrue
  | jfalse
  | other (truthy : Bool)
deriving DecidableEq, Repr

/-- JavaScript truthiness of a `JsVal`. -/
def JsVal.truthy : JsVal → Bool
  | .undefined => false
  | .jtrue => true
  | .jfalse => false
  | .other b => b

/-- JavaScript strict equality `v === true`. -/
def JsVal.isTrue : JsVal → Bool
  | .jtrue => true
  | _ => false

/-- One element of a Gemini `parts` array (`{text?, thought?, functionCall?}`).
`text = none` models an absent field; a present empty string is falsy in
JavaScript, which `truthyText` accounts for.  The `functionCall` payload is
opaque and modelled by an identifier. -/
structure Part where
  text : Option (List Char) := none
  thought : JsVal := .undefined
  functionCall : Option (List Char) := none
deriving DecidableEq, Repr

/-- JavaScript truthiness of `part.text`. -/
def truthyText (p : Part) : Bool :=
  match p.text with
  | some t => !t.isEmpty
  | none => false

/-- The text of a part, defaulting to the empty string. -/
def textOrEmpty (p : Part) : List Char := p.text.getD []

/-- The result record of `parseParts` (`src/core.js`). -/
structure ParseResult where
  thoughtParts : List Part
  responseText : List Char
  functionCall : Option (List Char)
  hasThought : Bool
  hasFunctionCall : Bool
deriving DecidableEq, Repr

/-- The initial `result` object of `parseParts`. -/
def emptyParseResult : ParseResult := ⟨[], [], none, false, false⟩

/-- `part.thought === true && part.text`: the first branch of the
`parseParts` loop. -/
def isThoughtBranch (p : Part) : Bool := p.thought.isTrue && truthyText p

/-- `part.text && !part.thought`: the condition of the second branch of the
`parseParts` loop. -/
def isResponseCond (p : Part) : Bool := truthyText p && !p.thought.truthy

/-- One iteration of the `for (const part of parts)` loop of `parseParts`
(`src/core.js`). -/
def parsePartsStep (r : ParseResult) (p : Part) : ParseResult :=
  if isThoughtBranch p then
    { r with thoughtParts := r.thoughtParts ++ [p], hasThought := true }
  else if isResponseCond p then
    { r with responseText := r.responseText ++ textOrEmpty p }
  else if p.functionCall.isSome then
    { r with functionCall := p.functionCall, hasFunctionCall := true }
  else r

/-- `parseParts` from `src/core.js`.  `none` models a non-array input
(the `!Array.isArray(parts)` early return). -/
def parseParts : Option (List Part) → ParseResult
  | none => emptyParseResult
  | some ps => ps.foldl parsePartsStep emptyParseResult

/-- A part reaches the function-call branch of `parseParts`: it carries a
`functionCall` and is classified neither as a thought part nor as a
response-text part. -/
def isFcBranch (p : Part) : Bool :=
  !isThoughtBranch p && !isResponseCond p && p.functionCall.isSome

theorem isThoughtBranch_false_of_responseCond {p : Part}
    (h : isResponseCond p = true) : isThoughtBranch p = false := by
  rw [isResponseCond, Bool.and_eq_true] at h
  rw [isThoughtBranch]
  cases hv : p.thought with
  | jtrue => rw [hv] at h; simp [JsVal.truthy] at h
  | undefined => simp [JsVal.isTrue]
  | jfalse => simp [JsVal.isTrue]
  | other b => simp [JsVal.isTrue]

theorem isResponseCond_false_of_thought {p : Part}
    (h : isThoughtBranch p = true) : isResponseCond p = false := by
  by_contra hc
  rw [Bool.not_eq_false] at hc
  rw [isThoughtBranch_false_of_responseCond hc] at h
  exact absurd h (by decide)

theorem step_responseText (r : ParseResult) (p : Part) :
    (parsePartsStep r p).responseText
      = if isResponseCond p then r.responseText ++ textOrEmpty p
        else r.responseText := by
  unfold parsePartsStep
  by_cases hT : isThoughtBranch p = true
  · simp [hT, isResponseCond_false_of_thought hT]
  · by_cases hR : isResponseCond p = true
    · simp [hT, hR]
    · by_cases hC : p.functionCall.isSome = true <;> simp [hT, hR, hC]

theorem step_thoughtParts (r : ParseResult) (p : Part) :
    (parsePartsStep r p).thoughtParts
      = if isThoughtBranch p then r.thoughtParts ++ [p] else r.thoughtParts := by
  unfold parsePartsStep
  by_cases hT : isThoughtBranch p = true
  · simp [hT]
  · by_cases hR : isResponseCond p = true
    · simp [hT, hR]
    · by_cases hC : p.functionCall.isSome = true <;> simp [hT, hR, hC]

theorem step_functionCall (r : ParseResult) (p : Part) :
    (parsePartsStep r p).functionCall
      = if isFcBranch p then p.functionCall else r.functionCall := by
  unfold parsePartsStep
  by_cases hT : isThoughtBranch p = true
  · simp [hT, isFcBranch]
  · by_cases hR : isResponseCond p = true
    · simp [hT, hR, isFcBranch]
    · by_cases hC : p.functionCall.isSome = true <;> simp [hT, hR, hC, isFcBranch]

theorem step_hasThought (r : ParseResult) (p : Part) :
    (parsePartsStep r p).hasThought = (r.hasThought || isThoughtBranch p) := by
  unfold parsePartsStep
  by_cases hT : isThoughtBranch p = true
  · simp [hT]
  · by_cases hR : isResponseCond p = true
    · simp [hT, hR]
    · by_cases hC : p.functionCall.isSome = true <;> simp [hT, hR, hC]

theorem step_hasFunctionCall (r : ParseResult) (p : Part) :
    (parsePartsStep r p).hasFunctionCall
      = (r.hasFunctionCall || isFcBranch p) := by
  unfold parsePartsStep
  by_cases hT : isThoughtBranch p = true
  · simp [hT, isFcBranch]
  · by_cases hR : isResponseCond p = true
    · simp [hT, hR, isFcBranch]
    · by_cases hC : p.functionCall.isSome = true <;> simp [hT, hR, hC, isFcBranch]

theorem getLast?_cons_map_getD {α β : Type} (p : α) (l : List α) (f : α → β)
    (x : β) :
    (((p :: l).getLast?).map f).getD x = ((l.getLast?).map f).getD (f p) := by
  cases l with
  | nil => rfl
  | cons y l' =>
    rw [List.getLast?_cons_cons]
    have hs : (y :: l').getLast?.isSome = true := by
      rw [List.getLast?_isSome]
      exact List.cons_ne_nil y l'
    rcases Option.isSome_iff_exists.mp hs with ⟨z, hz⟩
    rw [hz]
    rfl

theorem foldl_prs_responseText (ps : List Part) (r : ParseResult) :
    (ps.foldl parsePartsStep r).responseText
      = r.responseText ++ ((ps.filter isResponseCond).map textOrEmpty).flatten := by
  induction ps generalizing r with
  | nil => simp
  | cons p ps ih =>
    rw [List.foldl_cons, ih, step_responseText]
    by_cases hR : isResponseCond p = true <;>
      simp [hR, List.filter_cons, List.append_assoc]

theorem foldl_prs_thoughtParts (ps : List Part) (r : ParseResult) :
    (ps.foldl parsePartsStep r).thoughtParts
      = r.thoughtParts ++ ps.filter isThoughtBranch := by
  induction ps generalizing r with
  | nil => simp
  | cons p ps ih =>
    rw [List.foldl_cons, ih, step_thoughtParts]
    by_cases hT : isThoughtBranch p = true <;>
      simp [hT, List.filter_cons, List.append_assoc]

theorem foldl_prs_functionCall (ps : List Part) (r : ParseResult) :
    (ps.foldl parsePartsStep r).functionCall
      = ((ps.filter isFcBranch).getLast?.map Part.functionCall).getD
          r.functionCall := by
  induction ps generalizing r with
  | nil => simp
  | cons p ps ih =>
    rw [List.foldl_cons, ih, step_functionCall]
    by_cases hF : isFcBranch p = true
    · rw [List.filter_cons_of_pos hF, if_pos hF, getLast?_cons_map_getD]
    · rw [List.filter_cons_of_neg (by simp [hF]), if_neg (by simp [hF])]

theorem foldl_prs_hasThought (ps : List Part) (r : ParseResult) :
    (ps.foldl parsePartsStep r).hasThought
      = (r.hasThought || ps.any isThoughtBranch) := by
  induction ps generalizing r with
  | nil => simp
  | cons p ps ih =>
    rw [List.foldl_cons, ih, step_hasThought]
    simp [List.any_cons, Bool.or_assoc]

theorem foldl_prs_hasFunctionCall (ps : List Part) (r : ParseResult) :
    (ps.foldl parsePartsStep r).hasFunctionCall
      = (r.hasFunctionCall || ps.any isFcBranch) := by
  induction ps generalizing r with
  | nil => simp
  | cons p ps ih =>
    rw [List.foldl_cons, ih, step_hasFunctionCall]
    simp [List.any_cons, Bool.or_assoc]

/-- Counterexample to claim C10 as stated: when several parts carry a
`functionCall`, `parseParts` does NOT always keep the last one.  A part that
also has non-empty text and a falsy thought is consumed by the
response-text branch, so its `functionCall` is ignored: here the last part
carrying a `functionCall` has payload "B", yet the result holds "A". -/
theorem parseParts_functionCall_counterexample :
    (([⟨none, .undefined, some "A".toList⟩,
       ⟨some "x".toList, .undefined, some "B".toList⟩] :
        List Part).filter (fun p => p.functionCall.isSome)).getLast?
      = some ⟨some "x".toList, .undefined, some "B".toList⟩ ∧
    (parseParts (some [⟨none, .undefined, some "A".toList⟩,
       ⟨some "x".toList, .undefined, some "B".toList⟩])).functionCall
      = some "A".toList ∧
    (some "A".toList : Option (List Char)) ≠ some "B".toList := by
  refine ⟨by decide, by decide, by decide⟩

/-- Amended claim C10: `parseParts` is total and partitions parts
disjointly.  For every input (a non-array yields the empty defaults):
`responseText` is the in-order concatenation of the texts of parts with
non-empty text and falsy thought; `thoughtParts` collects exactly the parts
with `thought === true` and non-empty text (which therefore never feed
`responseText`); a part whose thought is truthy but not `true` and that has
no `functionCall` contributes to no category; and `functionCall` holds the
last `functionCall` among the parts that reach the function-call branch —
parts carrying a `functionCall` that are classified neither as thought nor
as response text (amended: not simply the last part carrying one). -/
theorem parseParts_spec (ops : Option (List Part)) :
    parseParts none = emptyParseResult
    ∧ (∀ ps, ops = some ps →
        (parseParts ops).responseText
            = ((ps.filter isResponseCond).map textOrEmpty).flatten
        ∧ (parseParts ops).thoughtParts = ps.filter isThoughtBranch
        ∧ (parseParts ops).functionCall
            = ((ps.filter isFcBranch).getLast?.map Part.functionCall).getD none
        ∧ (parseParts ops).hasThought = ps.any isThoughtBranch
        ∧ (parseParts ops).hasFunctionCall = ps.any isFcBranch) := by
  refine ⟨rfl, ?_⟩
  rintro ps rfl
  refine ⟨?_, ?_, ?_, ?_, ?_⟩
  · simpa [parseParts, emptyParseResult] using foldl_prs_responseText ps emptyParseResult
  · simpa [parseParts, emptyParseResult] using foldl_prs_thoughtParts ps emptyParseResult
  · simpa [parseParts, emptyParseResult] using foldl_prs_functionCall ps emptyParseResult
  · simpa [parseParts, emptyParseResult] using foldl_prs_hasThought ps emptyParseResult
  · simpa [parseParts, emptyParseResult] using foldl_prs_hasFunctionCall ps emptyParseResult

/-- Witness for `parseParts_spec` at a concrete input: a thought part, a
response part and a function-call part together. -/
theorem parseParts_spec_witness :
    (parseParts (some [⟨some "th".toList, .jtrue, none⟩,
        ⟨some "re".toList, .undefined, none⟩,
        ⟨none, .undefined, some "F".toList⟩])).responseText = "re".toList :=
  ((parseParts_spec (some [⟨some "th".toList, .jtrue, none⟩,
      ⟨some "re".toList, .undefined, none⟩,
      ⟨none, .undefined, some "F".toList⟩])).2 _ rfl).1.trans (by decide)

/-- A `systemInstruction` object; `parts = none` models a value whose
`parts` member is not an array (`!Array.isArray(...)`). -/
structure SysInstruction where
  parts : Option (List Part) := none
deriving DecidableEq, Repr

/-- One element of the `contents` array of a request body; `parts = none`
models an absent or non-array `parts` member. -/
structure Content where
  role : List Char
  parts : Option (List Part) := none
deriving DecidableEq, Repr

/-- A Gemini request body, restricted to the members the proxy touches.
`none` models an absent (or non-array, for `contents`) member. -/
structure Body where
  systemInstruction : Option SysInstruction := none
  system_instruction : Option SysInstruction := none
  contents : Option (List Content) := none
deriving DecidableEq, Repr

/-- `normalizeSystemInstruction` from `src/core.js`, for a non-null body:
when both `systemInstruction` and `system_instruction` exist the snake-case
alias is deleted; when only the alias exists it is renamed to
`systemInstruction`. -/
def normalizeSystemInstruction (body : Body) : Body :=
  match body.systemInstruction, body.system_instruction with
  | some _, some _ => { body with system_instruction := none }
  | none, some si =>
      { body with systemInstruction := some si, system_instruction := none }
  | _, _ => body

theorem normalize_contents (body : Body) :
    (normalizeSystemInstruction body).contents = body.contents := by
  unfold normalizeSystemInstruction
  rcases body with ⟨si, sialias, cs⟩
  cases si <;> cases sialias <;> rfl

/-- The index of the last element satisfying `p` (JavaScript
`lastIndexOf` on the image of the predicate). -/
def lastIdxWhere {α : Type} (p : α → Bool) : List α → Option Nat
  | [] => none
  | x :: xs =>
    match lastIdxWhere p xs with
    | some k => some (k + 1)
    | none => if p x then some 0 else none

theorem lastIdxWhere_eq_none {α : Type} (p : α → Bool) (l : List α) :
    lastIdxWhere p l = none ↔ ∀ x ∈ l, p x = false := by
  induction l with
  | nil => simp [lastIdxWhere]
  | cons x xs ih =>
    unfold lastIdxWhere
    cases h : lastIdxWhere p xs with
    | some k =>
      simp only []
      constructor
      · intro hc; exact absurd hc (by simp)
      · intro hall
        rw [ih.mpr (fun y hy => hall y (List.mem_cons_of_mem x hy))] at h
        exact absurd h (by simp)
    | none =>
      by_cases hx : p x = true
      · simp [hx]
      · rw [Bool.not_eq_true] at hx
        simp only [hx, if_false]
        constructor
        · intro _ y hy
          rcases List.mem_cons.mp hy with rfl | hy'
          · exact hx
          · exact ih.mp h y hy'
        · intro _; rfl

theorem lastIdxWhere_decomp {α : Type} {p : α → Bool} {l : List α} {k : Nat}
    (h : lastIdxWhere p l = some k) :
    ∃ pre x post, l = pre ++ x :: post ∧ pre.length = k ∧ p x = true
      ∧ ∀ y ∈ post, p y = false := by
  induction l generalizing k with
  | nil => exact absurd h (by simp [lastIdxWhere])
  | cons a xs ih =>
    unfold lastIdxWhere at h
    cases hxs : lastIdxWhere p xs with
    | some k' =>
      rw [hxs] at h
      simp only [Option.some.injEq] at h
      rcases ih hxs with ⟨pre, x, post, hl, hlen, hpx, hpost⟩
      exact ⟨a :: pre, x, post, by rw [hl]; rfl, by simp [hlen, ← h], hpx, hpost⟩
    | none =>
      rw [hxs] at h
      by_cases ha : p a = true
      · rw [if_pos ha] at h
        simp only [Option.some.injEq] at h
        exact ⟨[], a, xs, rfl, by simp [← h], ha,
          (lastIdxWhere_eq_none p xs).mp hxs⟩
      · rw [if_neg ha] at h
        exact absurd h (by simp)

/-- Replace the element at index `n` by its image under `f`
(JavaScript `l[n] = f(l[n])`). -/
def modifyIdx {α : Type} (f : α → α) : Nat → List α → List α
  | _, [] => []
  | 0, x :: xs => f x :: xs
  | n + 1, x :: xs => x :: modifyIdx f n xs

theorem modifyIdx_append {α : Type} (f : α → α) (pre : List α) (x : α)
    (post : List α) : modifyIdx f pre.length (pre ++ x :: post)
      = pre ++ f x :: post := by
  induction pre with
  | nil => rfl
  | cons a pre ih =>
    simp only [List.cons_append, List.length_cons, modifyIdx, List.append_eq, ih]

theorem take_decomp {α : Type} (pre : List α) (x : α) (post : List α) :
    (pre ++ x :: post).take (pre.length + 1) = pre ++ [x] := by
  induction pre with
  | nil => rfl
  | cons a pre ih => simp only [List.cons_append, List.length_cons,
      List.take_succ_cons, ih]

theorem drop_decomp {α : Type} (pre : List α) (x : α) (post : List α) :
    (pre ++ x :: post).drop (pre.length + 1) = post := by
  induction pre with
  | nil => rfl
  | cons a pre ih => simp only [List.cons_append, List.length_cons,
      List.drop_succ_cons, ih]

/-- A `{ text: t }` part. -/
def mkTextPart (t : List Char) : Part := { text := some t }

/-- The `modelResponsePart` object of `buildRetryRequest` (`src/core.js`). -/
def modelResponsePart (accumulatedText : List Char) : Content :=
  ⟨"model".toList, some [mkTextPart accumulatedText]⟩

/-- The `userRetryPromptPart` object of `buildRetryRequest` (`src/core.js`).
The `RETRY_PROMPT` literal (commented out in the `constants.js` revision of
this tree) is threaded as a parameter; its text is immaterial here. -/
def userRetryPromptPart (retryPrompt : List Char) : Content :=
  ⟨"user".toList, some [mkTextPart retryPrompt]⟩

/-- `contents.map(c => c.role).lastIndexOf("user")` from
`buildRetryRequest` (`src/core.js`). -/
def lastUserIdx (cs : List Content) : Option Nat :=
  lastIdxWhere (fun c => c.role == "user".toList) cs

/-- `buildRetryRequest` from `src/core.js`.  The deep copy
(`structuredClone`) is implicit in the purely functional model. -/
def buildRetryRequest (retryPrompt : List Char) (currentBody : Body)
    (accumulatedText : List Char) : Body :=
  if accumulatedText.length ≤ FINISHED_TOKEN.length then currentBody
  else
    let nb := normalizeSystemInstruction currentBody
    let mr := modelResponsePart accumulatedText
    let ur := userRetryPromptPart retryPrompt
    match nb.contents with
    | some cs =>
      match lastUserIdx cs with
      | some k =>
        { nb with contents := some (cs.take (k + 1) ++ [mr, ur] ++ cs.drop (k + 1)) }
      | none => { nb with contents := some (cs ++ [mr, ur]) }
    | none => { nb with contents := some [mr, ur] }

/-- Claim C4: when `accumulatedText` is no longer than the FINISHED token,
`buildRetryRequest` returns the body unchanged; otherwise its `contents`
equal the original contents with exactly two new entries — the model echo of
the accumulated text followed by the user retry prompt — inserted
immediately after the last content whose role is "user" (appended at the
end when no user content exists; created afresh when `contents` is absent),
every other content keeping its value and relative order. -/
theorem buildRetryRequest_spec (retryPrompt : List Char) (body : Body)
    (acc : List Char) :
    (acc.length ≤ FINISHED_TOKEN.length →
        buildRetryRequest retryPrompt body acc = body)
    ∧ (FINISHED_TOKEN.length < acc.length →
        ∃ pre post,
          body.contents.getD [] = pre ++ post
          ∧ (buildRetryRequest retryPrompt body acc).contents
              = some (pre ++ modelResponsePart acc
                  :: userRetryPromptPart retryPrompt :: post)
          ∧ ((∃ pre' lastc, pre = pre' ++ [lastc]
                ∧ lastc.role = "user".toList
                ∧ ∀ c ∈ post, c.role ≠ "user".toList)
             ∨ (post = [] ∧ ∀ c ∈ pre, c.role ≠ "user".toList))) := by
  constructor
  · intro hle
    unfold buildRetryRequest
    rw [if_pos hle]
  · intro hgt
    unfold buildRetryRequest
    rw [if_neg (by omega)]
    simp only [normalize_contents]
    cases hcs : body.contents with
    | none =>
      exact ⟨[], [], by simp, by simp, Or.inr ⟨rfl, by simp⟩⟩
    | some cs =>
      cases hk : lastUserIdx cs with
      | some k =>
        rcases lastIdxWhere_decomp hk with ⟨pre, x, post, hl, hlen, hpx, hpost⟩
        subst hl
        subst hlen
        refine ⟨pre ++ [x], post, by simp, ?_, Or.inl ⟨pre, x, rfl, ?_, ?_⟩⟩
        · simp only [hk, take_decomp, drop_decomp]
          simp
        · exact beq_iff_eq.mp hpx
        · intro c hc
          have := hpost c hc
          simpa using this
      | none =>
        refine ⟨cs, [], by simp, by simp [hk], Or.inr ⟨rfl, ?_⟩⟩
        intro c hc
        have := (lastIdxWhere_eq_none _ cs).mp hk c hc
        simpa using this

/-- Witness for `buildRetryRequest_spec`: the long-text branch at a concrete
one-user-content body. -/
theorem buildRetryRequest_spec_witness :
    ∃ pre post,
      (Body.mk none none (some [⟨"user".toList, none⟩])).contents.getD []
          = pre ++ post
      ∧ (buildRetryRequest "R".toList
            (Body.mk none none (some [⟨"user".toList, none⟩]))
            (List.replicate 24 'a')).contents
          = some (pre ++ modelResponsePart (List.replicate 24 'a')
              :: userRetryPromptPart "R".toList :: post)
      ∧ ((∃ pre' lastc, pre = pre' ++ [lastc]
            ∧ lastc.role = "user".toList
            ∧ ∀ c ∈ post, c.role ≠ "user".toList)
         ∨ (post = [] ∧ ∀ c ∈ pre, c.role ≠ "user".toList)) :=
  (buildRetryRequest_spec "R".toList
    (Body.mk none none (some [⟨"user".toList, none⟩]))
    (List.replicate 24 'a')).2 (by decide)

/-- The separator `"\n\n---\n"` used by `injectFinishTokenPrompt`
(`src/core.js`) when gluing prompt blocks onto existing text. -/
def sepLine : List Char := "\n\n---\n".toList

/-- Append `suf` to the text of a part (JavaScript `part.text += suf`,
used only where `part.text` is truthy). -/
def appendTextSuffix (suf : List Char) (p : Part) : Part :=
  { p with text := some (textOrEmpty p ++ suf) }

/-- The `systemInstruction` block of `injectFinishTokenPrompt`
(`src/core.js`): create `systemInstruction` with the finish prompt as sole
part when it is missing, its `parts` is not an array, `parts` is empty or
`parts[0].text` is falsy (the latter two replace `parts[0]`); otherwise
append the prompt to `parts[0].text` after the separator.  The
`FINISH_TOKEN_PROMPT` literal is threaded as the parameter `ftp`. -/
def injectFtpIntoSys (ftp : List Char) (body : Body) : Body :=
  match body.systemInstruction with
  | none => { body with systemInstruction := some ⟨some [mkTextPart ftp]⟩ }
  | some si =>
    match si.parts with
    | none => { body with systemInstruction := some ⟨some [mkTextPart ftp]⟩ }
    | some [] => { body with systemInstruction := some ⟨some [mkTextPart ftp]⟩ }
    | some (p0 :: rest) =>
      if truthyText p0 then
        let np := appendTextSuffix (sepLine ++ ftp) p0
        { body with systemInstruction := some ⟨some (np :: rest)⟩ }
      else
        { body with systemInstruction := some ⟨some (mkTextPart ftp :: rest)⟩ }

/-- The per-content `model` block of `injectFinishTokenPrompt`
(`src/core.js`): for a content with role "model" and an array `parts`,
append `"\n" + FINISHED_TOKEN` to the last part with truthy text. -/
def appendFinishedToModel (c : Content) : Content :=
  if c.role == "model".toList then
    match c.parts with
    | none => c
    | some ps =>
      match lastIdxWhere truthyText ps with
      | none => c
      | some j =>
        let nps := modifyIdx (appendTextSuffix ('\n' :: FINISHED_TOKEN)) j ps
        { c with parts := some nps }
  else c

/-- `part.text && part.text.trim() !== ""`: the condition picking the part
that receives the reminder prompt in `injectFinishTokenPrompt`. -/
def truthyNonBlank (p : Part) : Bool :=
  truthyText p && !(jsTrim (textOrEmpty p)).isEmpty

/-- The final block of `injectFinishTokenPrompt` (`src/core.js`): when the
last content has role "user" and a non-empty `parts` array, append the
reminder prompt (parameter `rem`; the `REMINDER_PROMPT` literal is absent
from the `constants.js` revision of this tree) after the separator to the
last part whose text is truthy and non-blank after trimming. -/
def appendReminderToLastUser (rem : List Char) (body : Body) : Body :=
  match body.contents with
  | none => body
  | some cs =>
    match cs.getLast? with
    | none => body
    | some lc =>
      if lc.role == "user".toList then
        match lc.parts with
        | none => body
        | some [] => body
        | some ps =>
          match lastIdxWhere truthyNonBlank ps with
          | none => body
          | some j =>
            let nps := modifyIdx (appendTextSuffix (sepLine ++ rem)) j ps
            { body with contents := some (cs.dropLast ++ [{ lc with parts := some nps }]) }
      else body

/-- The `contents` loop of `injectFinishTokenPrompt` (`src/core.js`):
apply `appendFinishedToModel` to every content. -/
def mapModelContents (body : Body) : Body :=
  match body.contents with
  | none => body
  | some cs => { body with contents := some (cs.map appendFinishedToModel) }

/-- `injectFinishTokenPrompt` from `src/core.js` (second part): deep copy
(implicit in the functional model), normalise the `systemInstruction` alias,
install or extend the system prompt, teach by example on model turns, and
glue the reminder onto the last user turn. -/
def injectFinishTokenPrompt (ftp rem : List Char) (body : Body) : Body :=
  appendReminderToLastUser rem
    (mapModelContents (injectFtpIntoSys ftp (normalizeSystemInstruction body)))

theorem injectFtpIntoSys_contents (ftp : List Char) (body : Body) :
    (injectFtpIntoSys ftp body).contents = body.contents := by
  rcases body with ⟨osi, oal, ocs⟩
  cases osi with
  | none => rfl
  | some si =>
    rcases si with ⟨ops⟩
    cases ops with
    | none => rfl
    | some ps =>
      cases ps with
      | nil => rfl
      | cons p0 rest =>
        by_cases h : truthyText p0 = true <;> simp [injectFtpIntoSys, h]

theorem appendFinishedToModel_role (c : Content) :
    (appendFinishedToModel c).role = c.role := by
  unfold appendFinishedToModel
  by_cases h : (c.role == "model".toList) = true
  · rw [if_pos h]
    cases hp : c.parts with
    | none => rfl
    | some ps =>
      dsimp only
      cases hj : lastIdxWhere truthyText ps with
      | none => rfl
      | some j => rfl
  · rw [if_neg h]

theorem getLast?_map_list {α β : Type} (f : α → β) (l : List α) :
    (l.map f).getLast? = l.getLast?.map f := by
  induction l with
  | nil => rfl
  | cons x xs ih =>
    cases xs with
    | nil => rfl
    | cons y ys =>
      simp only [List.map_cons]
      rw [List.getLast?_cons_cons, ← List.map_cons, ih, List.getLast?_cons_cons]

theorem get?_dropLast_append {α : Type} (l : List α) (x : α) {i : Nat}
    (h : i + 1 < l.length) : (l.dropLast ++ [x])[i]? = l[i]? := by
  rw [List.getElem?_append_left (by rw [List.length_dropLast]; omega),
    List.getElem?_dropLast, if_pos (by omega)]

theorem mapModelContents_sys (body : Body) :
    (mapModelContents body).systemInstruction = body.systemInstruction := by
  rcases body with ⟨osi, oal, ocs⟩
  cases ocs <;> rfl

theorem mapModelContents_contents {body : Body} {cs : List Content}
    (h : body.contents = some cs) :
    (mapModelContents body).contents = some (cs.map appendFinishedToModel) := by
  rcases body with ⟨osi, oal, ocs⟩
  cases ocs with
  | none => exact absurd h (by simp)
  | some cs' =>
    simp only [Option.some.injEq] at h
    subst h
    rfl

theorem appendReminder_sys (rem : List Char) (body : Body) :
    (appendReminderToLastUser rem body).systemInstruction
      = body.systemInstruction := by
  rcases body with ⟨osi, oal, ocs⟩
  cases ocs with
  | none => rfl
  | some cs =>
    unfold appendReminderToLastUser
    dsimp only
    cases hg : cs.getLast? with
    | none => rfl
    | some lc =>
      dsimp only
      by_cases hrole : (lc.role == "user".toList) = true
      · rw [if_pos hrole]
        cases hp : lc.parts with
        | none => rfl
        | some ps =>
          cases ps with
          | nil => rfl
          | cons p ps' =>
            dsimp only
            cases hj : lastIdxWhere truthyNonBlank (p :: ps') with
            | none => rfl
            | some j => rfl
      · rw [if_neg hrole]

theorem any_lastIdxWhere {α : Type} {p : α → Bool} {l : List α}
    (h : l.any p = true) : ∃ j, lastIdxWhere p l = some j := by
  cases hj : lastIdxWhere p l with
  | some j => exact ⟨j, rfl⟩
  | none =>
    exfalso
    rcases List.any_eq_true.mp h with ⟨x, hx, hpx⟩
    rw [(lastIdxWhere_eq_none p l).mp hj x hx] at hpx
    exact absurd hpx (by decide)

theorem appendReminder_get? (rem : List Char) {body : Body} {ms : List Content}
    {i : Nat} {mc : Content} (hbc : body.contents = some ms)
    (hmi : ms[i]? = some mc) (hrole : (mc.role == "user".toList) = false) :
    ((appendReminderToLastUser rem body).contents.getD [])[i]? = some mc := by
  rcases body with ⟨osi, oal, ocs⟩
  simp only at hbc
  subst hbc
  unfold appendReminderToLastUser
  dsimp only
  cases hg : ms.getLast? with
  | none => simpa using hmi
  | some lc =>
    dsimp only
    by_cases hlrole : (lc.role == "user".toList) = true
    · rw [if_pos hlrole]
      have hne : mc ≠ lc := by
        intro hmc
        rw [hmc, hlrole] at hrole
        exact absurd hrole (by decide)
      have hi : i < ms.length := by
        rcases List.getElem?_eq_some_iff.mp hmi with ⟨h, _⟩
        exact h
      have hi1 : i + 1 < ms.length := by
        rcases Nat.lt_or_ge (i + 1) ms.length with h | h
        · exact h
        · exfalso
          have hieq : i = ms.length - 1 := by omega
          rw [List.getLast?_eq_getElem?, ← hieq, hmi] at hg
          exact hne (by injection hg)
      cases hp : lc.parts with
      | none => simpa using hmi
      | some ps =>
        cases ps with
        | nil => simpa using hmi
        | cons p ps' =>
          dsimp only
          cases hj : lastIdxWhere truthyNonBlank (p :: ps') with
          | none => simpa using hmi
          | some j =>
            dsimp only [Option.getD]
            rw [get?_dropLast_append _ _ hi1]
            exact hmi
    · rw [if_neg hlrole]
      simpa using hmi

theorem appendReminder_apply (rem : List Char) {body : Body}
    {ms : List Content} {lc : Content} {p : Part} {ps' : List Part} {j : Nat}
    (hbc : body.contents = some ms) (hg : ms.getLast? = some lc)
    (hrole : (lc.role == "user".toList) = true)
    (hp : lc.parts = some (p :: ps'))
    (hj : lastIdxWhere truthyNonBlank (p :: ps') = some j) :
    (appendReminderToLastUser rem body).contents
      = some (ms.dropLast ++ [Content.mk lc.role
          (some (modifyIdx (appendTextSuffix (sepLine ++ rem)) j (p :: ps')))]) := by
  rcases body with ⟨osi, oal, ocs⟩
  simp only at hbc
  subst hbc
  unfold appendReminderToLastUser
  dsimp only
  rw [hg]
  dsimp only
  rw [if_pos hrole]
  rw [hp]
  dsimp only
  rw [hj]

/-- Counterexample to claim C9 as stated: the reminder prompt is appended to
the last part whose text is non-empty AFTER TRIMMING, not to the last part
with a non-empty text.  Here the parts are `"a"` and `" "`: the last
non-empty text is the space at index 1, but the code skips it (its trim is
empty) and glues the reminder onto index 0, leaving index 1 unchanged. -/
theorem injectFinishTokenPrompt_reminder_counterexample :
    lastIdxWhere truthyText
        [Part.mk (some "a".toList) .undefined none,
         Part.mk (some " ".toList) .undefined none] = some 1
    ∧ (injectFinishTokenPrompt "F".toList "R".toList
          (Body.mk none none (some [Content.mk "user".toList
            (some [Part.mk (some "a".toList) .undefined none,
                   Part.mk (some " ".toList) .undefined none])]))).contents
        = some [Content.mk "user".toList
            (some [Part.mk (some ("a".toList ++ sepLine ++ "R".toList)) .undefined none,
                   Part.mk (some " ".toList) .undefined none])] :=
  ⟨by decide, by decide⟩

/-- Amended claim C9: `injectFinishTokenPrompt` (i) appends — never
replacing — the finish prompt after the separator to
`systemInstruction.parts[0].text` whenever that text exists (after
normalisation of the alias); (ii) for every content with role "model" that
has a part with truthy text, appends `"\n" + FINISHED_TOKEN` to the last
such part; (iii) when the final content has role "user", appends the
reminder prompt after the separator to its last part whose text is
non-empty after trimming whitespace (amended from: last non-empty text
part). -/
theorem injectFinishTokenPrompt_spec (ftp rem : List Char) (body : Body) :
    (∀ si p0 rest,
        (normalizeSystemInstruction body).systemInstruction = some si →
        si.parts = some (p0 :: rest) → truthyText p0 = true →
        (injectFinishTokenPrompt ftp rem body).systemInstruction
          = some ⟨some (appendTextSuffix (sepLine ++ ftp) p0 :: rest)⟩)
    ∧ (∀ (cs : List Content) (i : Nat) (c : Content) (ps : List Part),
        body.contents = some cs → cs[i]? = some c →
        (c.role == "model".toList) = true → c.parts = some ps →
        ps.any truthyText = true →
        ∃ pre q post, ps = pre ++ q :: post ∧ truthyText q = true
          ∧ (∀ y ∈ post, truthyText y = false)
          ∧ ((injectFinishTokenPrompt ftp rem body).contents.getD [])[i]?
              = some (Content.mk c.role (some (pre ++
                  appendTextSuffix ('\n' :: FINISHED_TOKEN) q :: post))))
    ∧ (∀ (cs : List Content) (lc : Content) (ps : List Part),
        body.contents = some cs → cs.getLast? = some lc →
        (lc.role == "user".toList) = true → lc.parts = some ps →
        ps.any truthyNonBlank = true →
        ∃ pre q post, ps = pre ++ q :: post ∧ truthyNonBlank q = true
          ∧ (∀ y ∈ post, truthyNonBlank y = false)
          ∧ ((injectFinishTokenPrompt ftp rem body).contents.getD []).getLast?
              = some (Content.mk lc.role (some (pre ++
                  appendTextSuffix (sepLine ++ rem) q :: post)))) := by
  refine ⟨?_, ?_, ?_⟩
  · intro si p0 rest hsi hps htr
    unfold injectFinishTokenPrompt
    rw [appendReminder_sys, mapModelContents_sys]
    unfold injectFtpIntoSys
    rw [hsi]
    dsimp only
    rw [hps]
    dsimp only
    rw [if_pos htr]
  · intro cs i c ps hbc hci hrole hp hany
    rcases any_lastIdxWhere hany with ⟨j, hj⟩
    rcases lastIdxWhere_decomp hj with ⟨pre, q, post, hdecomp, hlen, hq, hpost⟩
    refine ⟨pre, q, post, hdecomp, hq, hpost, ?_⟩
    have hfc : appendFinishedToModel c = Content.mk c.role (some (pre ++
        appendTextSuffix ('\n' :: FINISHED_TOKEN) q :: post)) := by
      unfold appendFinishedToModel
      rw [if_pos hrole, hp]
      dsimp only
      rw [hj]
      dsimp only
      rw [hdecomp, ← hlen, modifyIdx_append]
    have hc2 : (mapModelContents (injectFtpIntoSys ftp
        (normalizeSystemInstruction body))).contents
          = some (cs.map appendFinishedToModel) :=
      mapModelContents_contents
        (by rw [injectFtpIntoSys_contents, normalize_contents, hbc])
    unfold injectFinishTokenPrompt
    refine appendReminder_get? rem hc2 ?_ ?_
    · rw [List.getElem?_map, hci]
      simp [hfc]
    · have hcrole : c.role = "model".toList := beq_iff_eq.mp hrole
      show (c.role == "user".toList) = false
      rw [hcrole]
      decide
  · intro cs lc ps hbc hg hrole hp hany
    cases ps with
    | nil => exact absurd hany (by simp)
    | cons p ps' =>
      rcases any_lastIdxWhere hany with ⟨j, hj⟩
      rcases lastIdxWhere_decomp hj with ⟨pre, q, post, hdecomp, hlen, hq, hpost⟩
      refine ⟨pre, q, post, hdecomp, hq, hpost, ?_⟩
      have hflc : appendFinishedToModel lc = lc := by
        unfold appendFinishedToModel
        rw [if_neg ?hc]
        case hc =>
          rw [beq_iff_eq.mp hrole]
          decide
      have hc2 : (mapModelContents (injectFtpIntoSys ftp
          (normalizeSystemInstruction body))).contents
            = some (cs.map appendFinishedToModel) :=
        mapModelContents_contents
          (by rw [injectFtpIntoSys_contents, normalize_contents, hbc])
      have hgm : (cs.map appendFinishedToModel).getLast? = some lc := by
        rw [getLast?_map_list, hg]
        simp [hflc]
      unfold injectFinishTokenPrompt
      rw [appendReminder_apply rem hc2 hgm hrole hp hj]
      rw [Option.getD_some, List.getLast?_concat]
      rw [hdecomp, ← hlen, modifyIdx_append]

/-- Witness for `injectFinishTokenPrompt_spec`: the reminder clause at a
concrete single-user-content body. -/
theorem injectFinishTokenPrompt_spec_witness :
    ∃ pre q post,
      ([Part.mk (some "hi".toList) .undefined none] : List Part)
          = pre ++ q :: post
      ∧ truthyNonBlank q = true
      ∧ (∀ y ∈ post, truthyNonBlank y = false)
      ∧ ((injectFinishTokenPrompt "F".toList "R".toList
            (Body.mk none none (some [Content.mk "user".toList
              (some [Part.mk (some "hi".toList) .undefined none])]))).contents.getD
                []).getLast?
          = some (Content.mk "user".toList (some (pre ++
              appendTextSuffix (sepLine ++ "R".toList) q :: post))) :=
  (injectFinishTokenPrompt_spec "F".toList "R".toList
      (Body.mk none none (some [Content.mk "user".toList
        (some [Part.mk (some "hi".toList) .undefined none])]))).2.2
    [Content.mk "user".toList (some [Part.mk (some "hi".toList) .undefined none])]
    (Content.mk "user".toList (some [Part.mk (some "hi".toList) .undefined none]))
    [Part.mk (some "hi".toList) .undefined none]
    rfl rfl (by decide) rfl (by decide)

/-- `RETRYABLE_STATUS_CODES` from `src/constants.js`. -/
def RETRYABLE_STATUS_CODES : List Nat := [503, 403, 429, 500]

/-- `FATAL_STATUS_CODES` from `src/constants.js` (the earlier value `[500]`
is commented out there; the current value is the empty list). -/
def FATAL_STATUS_CODES : List Nat := []

/-- `MAX_NON_RETRYABLE_STATUS_RETRIES` from `src/constants.js`. -/
def MAX_NON_RETRYABLE_STATUS_RETRIES : Nat := 3

/-- `MAX_FETCH_RETRIES` from `src/constants.js`. -/
def MAX_FETCH_RETRIES : Nat := 3

/-- JavaScript `String.prototype.toLowerCase`, restricted to the simple
per-character mapping (the needles compared against are plain ASCII). -/
def jsToLower (l : List Char) : List Char := l.map Char.toLower

/-- The retry budget chosen by `handleStreamingRequest` (`src/handlers.js`,
error branch of the attempt loop) for a non-ok upstream status:
`config.maxRetries` when the status is in `RETRYABLE_STATUS_CODES`, else
`MAX_NON_RETRYABLE_STATUS_RETRIES`.  This handler has no 400-with-body
escape hatch; its 429 branch only sleeps and does not change the budget. -/
def streamingRetryBudget (maxRetries status : Nat) : Nat :=
  if status ∈ RETRYABLE_STATUS_CODES then maxRetries
  else MAX_NON_RETRYABLE_STATUS_RETRIES

/-- The retry budget chosen by `handleNonStreamingRequest`
(`src/handlers.js`, error branch of the attempt loop): the base retryable
set, upgraded for a 400 whose body mentions "api key" or "user location"
case-insensitively, provided `attempts <= config.maxRetries` (the guard on
the `else if` of the 429 sleep branch). -/
def nonStreamingRetryBudget (maxRetries attempts status : Nat)
    (errorText : List Char) : Nat :=
  let upgraded400 := decide (attempts ≤ maxRetries) && decide (status = 400)
    && (containsSeq "api key".toList (jsToLower errorText)
        || containsSeq "user location".toList (jsToLower errorText))
  if decide (status ∈ RETRYABLE_STATUS_CODES) || upgraded400 then maxRetries
  else MAX_NON_RETRYABLE_STATUS_RETRIES

/-- Counterexample to claim C7 as stated: in the STREAMING handler, a 400
response whose body contains "api key" still gets the non-retryable budget
3, not `MAX_RETRIES` — the 400-with-body upgrade exists only in the
non-streaming handler. -/
theorem retryBudget_counterexample :
    containsSeq "api key".toList (jsToLower "Invalid API key".toList) = true
    ∧ streamingRetryBudget 100 400 = 3
    ∧ (3 : Nat) ≠ 100 :=
  ⟨by decide, by decide, by decide⟩

/-- Amended claim C7: the fatal status set is empty; in the STREAMING
handler the budget is `maxRetries` exactly for statuses {403, 429, 500,
503} and `MAX_NON_RETRYABLE_STATUS_RETRIES = 3` otherwise (no 400
exception); in the NON-STREAMING handler a 400 whose body contains
"api key" or "user location" (case-insensitive) is additionally granted
the `maxRetries` budget, provided attempts have not exceeded the
maximum. -/
theorem retryBudget_spec (maxRetries attempts status : Nat)
    (errorText : List Char) :
    (streamingRetryBudget maxRetries status
        = if status = 403 ∨ status = 429 ∨ status = 500 ∨ status = 503
          then maxRetries else 3)
    ∧ (attempts ≤ maxRetries →
        nonStreamingRetryBudget maxRetries attempts status errorText
          = if status = 403 ∨ status = 429 ∨ status = 500 ∨ status = 503
              ∨ (status = 400
                 ∧ (containsSeq "api key".toList (jsToLower errorText) = true
                    ∨ containsSeq "user location".toList (jsToLower errorText)
                        = true))
            then maxRetries else 3)
    ∧ FATAL_STATUS_CODES = [] := by
  have hmem : status ∈ RETRYABLE_STATUS_CODES
      ↔ (status = 403 ∨ status = 429 ∨ status = 500 ∨ status = 503) := by
    simp [RETRYABLE_STATUS_CODES]
    tauto
  refine ⟨?_, ?_, rfl⟩
  · unfold streamingRetryBudget
    by_cases h : status = 403 ∨ status = 429 ∨ status = 500 ∨ status = 503
    · rw [if_pos (hmem.mpr h), if_pos h]
    · rw [if_neg (fun hc => h (hmem.mp hc)), if_neg h]
      rfl
  · intro hatt
    unfold nonStreamingRetryBudget
    by_cases h : status = 403 ∨ status = 429 ∨ status = 500 ∨ status = 503
    · rw [if_pos (by simp [hmem.mpr h]), if_pos (by tauto)]
    · by_cases h4 : status = 400
        ∧ (containsSeq "api key".toList (jsToLower errorText) = true
           ∨ containsSeq "user location".toList (jsToLower errorText) = true)
      · rw [if_pos ?hcond, if_pos (by tauto)]
        case hcond =>
          rcases h4 with ⟨h400, hbody⟩
          simp only [Bool.or_eq_true, decide_eq_true_eq, Bool.and_eq_true]
          right
          refine ⟨⟨hatt, h400⟩, ?_⟩
          rcases hbody with hb | hb
          · exact Or.inl hb
          · exact Or.inr hb
      · rw [if_neg ?hcond, if_neg (by tauto)]
        · rfl
        case hcond =>
          simp only [Bool.or_eq_true, decide_eq_true_eq, Bool.and_eq_true]
          push_neg
          constructor
          · intro hc
            exact h (hmem.mp hc)
          · intro hc
            constructor
            · intro hb
              exact h4 ⟨hc.2, Or.inl hb⟩
            · intro hb
              exact h4 ⟨hc.2, Or.inr hb⟩

/-- Witness for `retryBudget_spec`: a non-streaming 400 with an API-key
message gets the full retry budget. -/
theorem retryBudget_spec_witness :
    nonStreamingRetryBudget 100 1 400 "No API key".toList = 100 :=
  ((retryBudget_spec 100 1 400 "No API key".toList).2.1 (by decide)).trans
    (by decide)

/-- `isResponseComplete` from `src/core.js`: the trimmed text ends with the
FINISHED token. -/
def isResponseComplete (t : List Char) : Bool :=
  FINISHED_TOKEN.isSuffixOf (jsTrim t)

/-- Modelled from the spec: `isFormalResponseStarted` is imported by
`handlers.js` from `core.js` but absent from the `core.js` revision in this
tree (that file's exports do not match the handler's import list).  Spec
section 4.5 defines begin-sentinel detection as asking whether the candidate
text contains BEGIN. -/
def isFormalResponseStarted (t : List Char) : Bool := containsSeq BEGIN_TOKEN t

/-- Modelled from the spec: the multi-argument call
`cleanFinalText(lineObject.text, true, false)` on the transition line
(`src/handlers.js`, forwarding loop) refers to a `core.js` revision absent
from this tree.  Spec section 4.5: on the transition event the suffix after
BEGIN becomes the first formal event, i.e. the leading BEGIN token is
removed from the emitted text. -/
def cleanTransitionText (t : List Char) : List Char :=
  if BEGIN_TOKEN.isPrefixOf t then t.drop BEGIN_TOKEN.length else t

/-- `LOOKAHEAD_SIZE = FINISHED_TOKEN.length + 4` from
`handleStreamingRequest` (`src/handlers.js`). -/
def LOOKAHEAD_SIZE : Nat := FINISHED_TOKEN.length + 4

/-- The source of a client-visible SSE data event in the streaming model. -/
inductive OutSrc where
  | preamble
  | fwd
  | terminalStop
  | fcFlush
  | passthrough
  | exhaustedFlush
  | exhaustedMark
deriving DecidableEq, Repr

/-- A client-visible SSE data event: its `parts`, its `finishReason` when
the model sets one, and which code path wrote it. -/
structure OutEvent where
  parts : List Part
  finishReason : Option (List Char) := none
  src : OutSrc
deriving DecidableEq, Repr

/-- One entry of `linesBuffer` (`src/handlers.js`): the re-serialised
stored line is represented by its `parts`; `text` is the `responseText`
the forwarder accounts against `textBuffer`. -/
structure BufLine where
  parts : List Part
  isTransitionLine : Bool
  text : List Char
deriving DecidableEq, Repr

/-- The texts of the buffered lines, concatenated in order. -/
def concatTexts (buf : List BufLine) : List Char := (buf.map BufLine.text).flatten

/-- The per-request configuration bits that `handleStreamingRequest` reads:
`injectBeginTokenPrompt`, `isIncludeThoughts`, `isLiteModel` and the
external `config.startOfThought` string. -/
structure StreamCfg where
  injectBegin : Bool
  isIncludeThoughts : Bool
  isLite : Bool
  startOfThought : List Char
deriving DecidableEq, Repr

/-- The mutable state of `handleStreamingRequest` (`src/handlers.js`).
`isThoughtFinished`, `isFirstOutput` and `lastSendChar` are declared
outside the attempt loop and persist across attempts; the other fields are
reset at the start of every attempt.  `output` collects the events written
to the client. -/
structure StreamState where
  isThoughtFinished : Bool
  isFirstOutput : Bool
  lastSendChar : List Char
  hasGotBeginToken : Bool
  hasFunctionCallInStream : Bool
  passthroughMode : Bool
  textBuffer : List Char
  linesBuffer : List BufLine
  accumulatedTextThisAttempt : List Char
  output : List OutEvent
deriving DecidableEq, Repr

/-- `someString.slice(-1)`: the last character as a string (empty when the
string is empty). -/
def jsSliceLast (l : List Char) : List Char :=
  match l.getLast? with
  | none => []
  | some c => [c]

/-- `linesBuffer[...]?.text.slice(-1) || lastSendChar`: the last character
of the most recent buffered text, falling back to `lastSendChar` when the
buffer (portion) is empty or that text is empty. -/
def charFromBuf (buf : List BufLine) (lastSend : List Char) : List Char :=
  match buf.getLast? with
  | none => lastSend
  | some b => if b.text.isEmpty then lastSend else jsSliceLast b.text

/-- The backtick character (the guard of the begin-sentinel detection). -/
def backtick : Char := Char.ofNat 96

/-- `theCharBeforeBeginToken`: the split prefix's last character, or the
context character when the prefix is empty. -/
def guardChar (pre : List Char) (below : List BufLine) (lastSend : List Char) :
    List Char :=
  if pre.isEmpty then charFromBuf below lastSend else jsSliceLast pre

/-- The outcome of the begin-sentinel detection block. -/
structure DetectResult where
  hasGotBeginToken : Bool
  isTransitionLine : Bool
  responseText : List Char
  linesBuffer : List BufLine
deriving DecidableEq, Repr

/-- The text of the most recent buffered line (`linesBuffer[len-1].text`). -/
def textOfLast (buf : List BufLine) : List Char :=
  match buf.getLast? with
  | none => []
  | some b => b.text

/-- The begin-sentinel detection block of `handleStreamingRequest`
(`src/handlers.js`, the three `else if` branches): try the current event
text alone, then concatenated with the last one or two buffered texts; a
hit requires the character before the first BEGIN of the candidate (taken
from the preceding buffered text or `lastSendChar` when the candidate's
split prefix is empty) not to be a backtick; on a hit the consumed buffered
lines are popped and the concatenation becomes the line text. -/
def detectStep (s : StreamState) (t : List Char) : DetectResult :=
  let buf := s.linesBuffer
  if !s.isThoughtFinished && !s.hasGotBeginToken && isFormalResponseStarted t then
    let ch := guardChar (splitPre BEGIN_TOKEN t) buf s.lastSendChar
    if ch != [backtick] then ⟨true, true, t, buf⟩
    else ⟨s.hasGotBeginToken, false, t, buf⟩
  else if !s.isThoughtFinished && !s.hasGotBeginToken && decide (1 ≤ buf.length)
      && isFormalResponseStarted (textOfLast buf ++ t) then
    let combined := textOfLast buf ++ t
    let ch := guardChar (splitPre BEGIN_TOKEN combined) buf.dropLast s.lastSendChar
    if ch != [backtick] then ⟨true, true, combined, buf.dropLast⟩
    else ⟨s.hasGotBeginToken, false, t, buf⟩
  else if !s.isThoughtFinished && !s.hasGotBeginToken && decide (2 ≤ buf.length)
      && isFormalResponseStarted (textOfLast buf.dropLast ++ textOfLast buf ++ t) then
    let combined := textOfLast buf.dropLast ++ textOfLast buf ++ t
    let ch := guardChar (splitPre BEGIN_TOKEN combined) buf.dropLast.dropLast
        s.lastSendChar
    if ch != [backtick] then ⟨true, true, combined, buf.dropLast.dropLast⟩
    else ⟨s.hasGotBeginToken, false, t, buf⟩
  else ⟨s.hasGotBeginToken, false, t, buf⟩

/-- The transition-line reshaping (`src/handlers.js`, the
`if (isTransitionLine)` block): the trimmed prefix before BEGIN is pushed
as a final thought line; the line text becomes BEGIN followed by the
trimmed `split(BEGIN)[1]` segment. -/
def transitionReshape (d : DetectResult) : List BufLine × List Char :=
  let pre := splitPre BEGIN_TOKEN d.responseText
  let buf :=
    if 0 < pre.length then
      d.linesBuffer
        ++ [⟨[Part.mk (some (jsTrim pre)) .jtrue none], false, jsTrim pre⟩]
    else d.linesBuffer
  (buf, BEGIN_TOKEN ++ jsTrim (jsSplit1 BEGIN_TOKEN d.responseText))

/-- One parsed `data:` line of the ingestion loop of
`handleStreamingRequest` (`src/handlers.js`): skip garbage thought-only
events, flush and switch to passthrough on the first function call, forward
verbatim in passthrough, otherwise run begin-sentinel detection, reshape a
transition line, re-mark texts as thoughts while the thought phase lasts,
and append the line to `linesBuffer` and its text to `textBuffer`. -/
def ingestEvent (s : StreamState) (ev : List Part) : StreamState :=
  let pp := parseParts (some ev)
  let s :=
    { s with hasFunctionCallInStream :=
        s.hasFunctionCallInStream || pp.hasFunctionCall }
  if pp.hasThought && pp.responseText.isEmpty && !pp.hasFunctionCall then s
  else if s.hasFunctionCallInStream && !s.passthroughMode then
    let flushed := s.linesBuffer.map (fun b =>
      if b.isTransitionLine then
        OutEvent.mk [mkTextPart (cleanFinalText b.text)] none .fcFlush
      else OutEvent.mk b.parts none .fcFlush)
    let itf := s.isThoughtFinished || s.linesBuffer.any BufLine.isTransitionLine
    { s with output := s.output ++ flushed ++ [OutEvent.mk ev none .fcFlush],
             linesBuffer := [], textBuffer := [], isThoughtFinished := itf,
             passthroughMode := true }
  else if s.passthroughMode then
    { s with output := s.output ++ [OutEvent.mk ev none .passthrough] }
  else
    let d := detectStep s pp.responseText
    let bt := if d.isTransitionLine then transitionReshape d
      else (d.linesBuffer, d.responseText)
    let fcParts := ev.filter (fun p => p.functionCall.isSome)
    let baseParts := mkTextPart bt.2 :: fcParts
    let marked :=
      if !s.isThoughtFinished && !d.hasGotBeginToken then
        baseParts.map (fun p =>
          if truthyText p then { p with thought := .jtrue } else p)
      else baseParts
    { s with hasGotBeginToken := d.hasGotBeginToken,
             linesBuffer := bt.1 ++ [⟨marked, d.isTransitionLine, bt.2⟩],
             textBuffer := s.textBuffer ++ bt.2 }

/-- One iteration body of the safe-forwarding `while` loop
(`src/handlers.js`): emit the thought prelude on first output, emit the
line (cleaned when it is the transition line, raw otherwise, and only when
thoughts are shown or finished), update the accumulated text, the last sent
character and `textBuffer`. -/
def forwardStep (cfg : StreamCfg) (lineObj : BufLine) (s : StreamState) :
    StreamState :=
  let s1 :=
    if s.isFirstOutput && cfg.isIncludeThoughts then
      let pev := OutEvent.mk [Part.mk (some cfg.startOfThought) .jtrue none]
        none .preamble
      { s with output := s.output ++ [pev] }
    else s
  let s2 :=
    if lineObj.isTransitionLine then
      let tev := OutEvent.mk [mkTextPart (cleanTransitionText lineObj.text)]
        none .fwd
      { s1 with output := s1.output ++ [tev], isThoughtFinished := true }
    else if cfg.isIncludeThoughts || s1.isThoughtFinished then
      { s1 with output := s1.output ++ [OutEvent.mk lineObj.parts none .fwd] }
    else s1
  let acc := s2.accumulatedTextThisAttempt ++ lineObj.text
  { s2 with isFirstOutput := false,
            accumulatedTextThisAttempt := acc,
            lastSendChar := jsSliceLast acc,
            textBuffer := s2.textBuffer.drop lineObj.text.length }

/-- The safe-forwarding `while` loop (`src/handlers.js`): emit buffered
lines from the front while the forwarded text still fits under
`safeTextLength`; the final `textBuffer.slice(forwardedTextLength)` is
performed incrementally by `forwardStep`. -/
def forwardAux (cfg : StreamCfg) (safe : Nat) :
    Nat → List BufLine → StreamState → StreamState
  | _, [], s => { s with linesBuffer := [] }
  | fwd, lineObj :: rest, s =>
    if fwd + lineObj.text.length ≤ safe then
      forwardAux cfg safe (fwd + lineObj.text.length) rest
        (forwardStep cfg lineObj s)
    else { s with linesBuffer := lineObj :: rest }

/-- Scanner for `countSplitOccur`: `skip` characters remain to be jumped
over after a previous hit. -/
def countSplitAux (pat : List Char) : Nat → List Char → Nat
  | _, [] => 0
  | 0, c :: rest =>
    if pat.isPrefixOf (c :: rest) && !pat.isEmpty then
      1 + countSplitAux pat (pat.length - 1) rest
    else countSplitAux pat 0 rest
  | k + 1, _ :: rest => countSplitAux pat k rest

/-- The number of non-overlapping occurrences of `pat` found by the
JavaScript `split` scan (one less than `split(pat).length`, for a
non-empty pattern). -/
def countSplitOccur (pat l : List Char) : Nat := countSplitAux pat 0 l

/-- `(x).split(sot).length - 1 >= 2`: the ghost-loop test of
`handleStreamingRequest` (`src/handlers.js`), including JavaScript's
behaviour for an empty separator (`split("")` yields one segment per
character). -/
def ghostCond (sot x : List Char) : Bool :=
  if sot.isEmpty then decide (3 ≤ x.length)
  else decide (2 ≤ countSplitOccur sot x)

/-- The outcome of the per-chunk`textBuffer.length > LOOKAHEAD_SIZE`
block: either the attempt continues with a drained state or it is aborted
(`break`) by the ghost-loop or premature-BEGIN checks. -/
inductive ChunkOutcome where
  | continueStream (s : StreamState)
  | abortAttempt (s : StreamState)
deriving DecidableEq, Repr

/-- The lookahead block run after ingesting a chunk (`src/handlers.js`):
when more than `LOOKAHEAD_SIZE` characters are buffered, check the
ghost-loop and premature-BEGIN conditions (each `break`s the attempt) and
otherwise run the safe-forwarding loop. -/
def postChunk (cfg : StreamCfg) (s : StreamState) : ChunkOutcome :=
  if LOOKAHEAD_SIZE < s.textBuffer.length then
    if ghostCond cfg.startOfThought
        (s.accumulatedTextThisAttempt ++ s.textBuffer) then
      .abortAttempt s
    else if cfg.isIncludeThoughts && s.isFirstOutput
        && isFormalResponseStarted s.textBuffer then
      .abortAttempt s
    else
      .continueStream
        (forwardAux cfg (s.textBuffer.length - LOOKAHEAD_SIZE) 0 s.linesBuffer s)
  else .continueStream s

/-- Ingest all parsed events of one upstream chunk, then run the lookahead
block. -/
def processChunk (cfg : StreamCfg) (s : StreamState) (chunk : List (List Part)) :
    ChunkOutcome :=
  postChunk cfg (chunk.foldl ingestEvent s)

/-- Run the chunks of one attempt until the upstream stream ends or the
attempt is aborted.  Returns the final state and whether an abort
(`break`) happened. -/
def runChunks (cfg : StreamCfg) :
    List (List (List Part)) → StreamState → StreamState × Bool
  | [], s => (s, false)
  | chunk :: rest, s =>
    match processChunk cfg s chunk with
    | .continueStream s' => runChunks cfg rest s'
    | .abortAttempt s' => (s', true)

/-- The completion decision at clean stream end (`src/handlers.js`, the
`done` branch): `(hasGotBeginToken || isThoughtFinished) &&
(isResponseComplete(textBuffer) || isLiteModel)`. -/
def doneDecision (cfg : StreamCfg) (s : StreamState) : Bool :=
  (s.hasGotBeginToken || s.isThoughtFinished)
    && (isResponseComplete s.textBuffer || cfg.isLite)

/-- The thought text accumulated from the residual buffered lines
(`part.thought && part.text`, truthiness). -/
def bufThoughtText (buf : List BufLine) : List Char :=
  (((buf.map BufLine.parts).flatten.filter
      (fun p => p.thought.truthy && truthyText p)).map textOrEmpty).flatten

/-- The formal text accumulated from the residual buffered lines
(`!part.thought && part.text`). -/
def bufResponseText (buf : List BufLine) : List Char :=
  (((buf.map BufLine.parts).flatten.filter
      (fun p => !p.thought.truthy && truthyText p)).map textOrEmpty).flatten

/-- The synthesised terminal success event (`src/handlers.js`, the
completion branch): the residual thought text (when non-empty, marked as
thought), the cleaned residual formal text (when non-empty), and
`finishReason: "STOP"`. -/
def terminalStopEvent (buf : List BufLine) : OutEvent :=
  let tt := bufThoughtText buf
  let ft := cleanFinalText (bufResponseText buf)
  OutEvent.mk
    ((if tt.isEmpty then [] else [Part.mk (some tt) .jtrue none])
      ++ (if ft.isEmpty then [] else [mkTextPart ft]))
    (some "STOP".toList) .terminalStop

/-- What one attempt reported when it ended. -/
structure AttemptLog where
  reachedDone : Bool
  passthroughAtDone : Bool
  hasGotBeginToken : Bool
  isThoughtFinished : Bool
  textBuffer : List Char
  completed : Bool
deriving DecidableEq, Repr

/-- Reset the per-attempt variables at the top of the attempt `while` loop
(`src/handlers.js`); the fields declared outside the loop persist. -/
def resetAttempt (s : StreamState) : StreamState :=
  { s with hasGotBeginToken := false, hasFunctionCallInStream := false,
           passthroughMode := false, textBuffer := [], linesBuffer := [],
           accumulatedTextThisAttempt := [] }

/-- The state at the start of `handleStreamingRequest`'s `process`. -/
def initialStreamState (cfg : StreamCfg) : StreamState :=
  { isThoughtFinished := !cfg.injectBegin, isFirstOutput := true,
    lastSendChar := [], hasGotBeginToken := false,
    hasFunctionCallInStream := false, passthroughMode := false,
    textBuffer := [], linesBuffer := [], accumulatedTextThisAttempt := [],
    output := [] }

/-- Run the attempt loop: each element of `attempts` is the chunk sequence
the upstream returned for that attempt.  On a clean stream end the
completion decision either synthesises the terminal event and ends the
request, or the next attempt begins; a stream that ended in passthrough
mode ends the request without a terminal event.  Returns the final state,
the per-attempt logs, and whether the request finished (as opposed to
exhausting the attempt list). -/
def runAttempts (cfg : StreamCfg) :
    List (List (List (List Part))) → StreamState →
      StreamState × List AttemptLog × Bool
  | [], s => (s, [], false)
  | chunks :: rest, s =>
    let r := runChunks cfg chunks (resetAttempt s)
    if r.2 then
      let log : AttemptLog := ⟨false, r.1.passthroughMode, r.1.hasGotBeginToken,
        r.1.isThoughtFinished, r.1.textBuffer, false⟩
      let next := runAttempts cfg rest r.1
      (next.1, log :: next.2.1, next.2.2)
    else if r.1.passthroughMode then
      (r.1, [⟨true, true, r.1.hasGotBeginToken, r.1.isThoughtFinished,
        r.1.textBuffer, false⟩], true)
    else if doneDecision cfg r.1 then
      ({ r.1 with output := r.1.output ++ [terminalStopEvent r.1.linesBuffer] },
       [⟨true, false, r.1.hasGotBeginToken, r.1.isThoughtFinished,
         r.1.textBuffer, true⟩], true)
    else
      let log : AttemptLog := ⟨true, false, r.1.hasGotBeginToken,
        r.1.isThoughtFinished, r.1.textBuffer, false⟩
      let next := runAttempts cfg rest r.1
      (next.1, log :: next.2.1, next.2.2)

/-- The `\n` + INCOMPLETE_TOKEN / `finishReason: "FXXKED"` terminal event
of the exhausted-retries path (`src/handlers.js`). -/
def exhaustedMarkEvent : OutEvent :=
  OutEvent.mk [mkTextPart ('\n' :: INCOMPLETE_TOKEN)] (some "FXXKED".toList)
    .exhaustedMark

/-- The whole engine-engaged streaming request (`src/handlers.js`,
`process`): run the attempts; when the loop ends without finishing, flush
the residual buffered lines unchanged and emit the incomplete marker. -/
def handleStreamingEngine (cfg : StreamCfg)
    (attempts : List (List (List (List Part)))) :
    StreamState × List AttemptLog :=
  let r := runAttempts cfg attempts (initialStreamState cfg)
  if r.2.2 then (r.1, r.2.1)
  else
    let flushed := r.1.linesBuffer.map
      (fun b => OutEvent.mk b.parts none .exhaustedFlush)
    ({ r.1 with output := r.1.output ++ flushed ++ [exhaustedMarkEvent] }, r.2.1)

/-- The HTTP status of the engine-engaged streaming response
(`src/handlers.js`, the `new Response(readable, {status: 200, ...})` at the
end of `handleStreamingRequest`). -/
def handleStreamingResponseStatus : Nat := 200

/-- Claim C8: the engine-engaged streaming response always has HTTP status
200, and when the attempt list is exhausted without the request finishing
(every applicable retry budget used up), the residual buffered lines are
flushed unchanged and the client receives a terminal event whose parts are
`[{text: "\n" + INCOMPLETE_TOKEN}]` with `finishReason: "FXXKED"`.  Errors
are absorbed by the attempt loop (modelled by totality: every input reaches
this path or a terminal event), never surfaced as exceptions. -/
theorem streamingExhausted_spec (cfg : StreamCfg)
    (attempts : List (List (List (List Part)))) :
    handleStreamingResponseStatus = 200
    ∧ (∀ s logs,
        runAttempts cfg attempts (initialStreamState cfg) = (s, logs, false) →
        (handleStreamingEngine cfg attempts).1.output
          = s.output
            ++ s.linesBuffer.map (fun b => OutEvent.mk b.parts none .exhaustedFlush)
            ++ [OutEvent.mk [mkTextPart ('\n' :: INCOMPLETE_TOKEN)]
                  (some "FXXKED".toList) .exhaustedMark]) := by
  refine ⟨rfl, ?_⟩
  intro s logs hrun
  unfold handleStreamingEngine
  rw [hrun]
  simp [exhaustedMarkEvent]

/-- Witness for `streamingExhausted_spec`: the empty attempt list. -/
theorem streamingExhausted_spec_witness :
    (handleStreamingEngine ⟨false, false, false, "T".toList⟩ []).1.output
      = (initialStreamState ⟨false, false, false, "T".toList⟩).output
        ++ (initialStreamState ⟨false, false, false, "T".toList⟩).linesBuffer.map
            (fun b => OutEvent.mk b.parts none .exhaustedFlush)
        ++ [OutEvent.mk [mkTextPart ('\n' :: INCOMPLETE_TOKEN)]
              (some "FXXKED".toList) .exhaustedMark] :=
  (streamingExhausted_spec ⟨false, false, false, "T".toList⟩ []).2
    (initialStreamState ⟨false, false, false, "T".toList⟩) [] rfl

/-- Counterexample to claim C1 as stated: a FINISHED token that appears in
the middle of the upstream formal text (followed by enough further text to
pass the lookahead window) is forwarded verbatim to the client.  Here the
first upstream event's text is `"a[RESPONSE_FINISHED]"`, a second event
supplies 30 more characters, and the first event is emitted raw by the
forwarding loop with the token inside its formal text. -/
theorem streaming_finished_leak_counterexample :
    ((handleStreamingEngine ⟨false, false, false, "T".toList⟩
        [[[[mkTextPart "a[RESPONSE_FINISHED]".toList]],
          [[mkTextPart "bbbbbbbbbbbbbbbbbbbbbbbbbbbbbb".toList]]]]).1.output.any
      (fun ev => ev.parts.any (fun p =>
        !p.thought.truthy && containsSeq FINISHED_TOKEN (textOrEmpty p)))) = true
    ∧ ((handleStreamingEngine ⟨false, false, false, "T".toList⟩
        [[[[mkTextPart "a[RESPONSE_FINISHED]".toList]],
          [[mkTextPart "bbbbbbbbbbbbbbbbbbbbbbbbbbbbbb".toList]]]]).1.output)[0]?
      = some (OutEvent.mk [mkTextPart "a[RESPONSE_FINISHED]".toList] none .fwd) :=
  ⟨by decide, by decide⟩

/-- Counterexample to claim C2 as stated: with `injectBegin = true`, a
second occurrence of BEGIN in the formal text after the transition is
forwarded verbatim.  The transition event `"[RESPONSE_BEGIN]hello"` is
cleaned, but the following event `"x[RESPONSE_BEGIN]y"` reaches the client
raw, its formal text containing BEGIN. -/
theorem streaming_begin_leak_counterexample :
    ((handleStreamingEngine ⟨true, false, false, "T".toList⟩
        [[[[mkTextPart "[RESPONSE_BEGIN]hello".toList]],
          [[mkTextPart "x[RESPONSE_BEGIN]y".toList]],
          [[mkTextPart "zzzzzzzzzzzzzzzzzzzzzzzzzzzzzz".toList]]]]).1.output.any
      (fun ev => (ev.src == OutSrc.fwd) && ev.parts.any (fun p =>
        !p.thought.truthy && containsSeq BEGIN_TOKEN (textOrEmpty p)))) = true
    ∧ ((handleStreamingEngine ⟨true, false, false, "T".toList⟩
        [[[[mkTextPart "[RESPONSE_BEGIN]hello".toList]],
          [[mkTextPart "x[RESPONSE_BEGIN]y".toList]],
          [[mkTextPart "zzzzzzzzzzzzzzzzzzzzzzzzzzzzzz".toList]]]]).1.output)[1]?
      = some (OutEvent.mk [mkTextPart "x[RESPONSE_BEGIN]y".toList] none .fwd) :=
  ⟨by decide, by decide⟩

/-- Counterexample to claim C3 as stated: `isThoughtFinished` persists
across retry attempts, so in a later attempt the engine declares the stream
complete although neither `hasGotBeginToken` holds for that attempt nor is
begin-injection disabled.  Attempt 1 forwards a transition line (latching
`isThoughtFinished`) and ends incomplete; attempt 2 has no BEGIN token at
all yet is declared complete. -/
theorem doneDecision_counterexample :
    (handleStreamingEngine ⟨true, false, false, "T".toList⟩
        [[[[mkTextPart "[RESPONSE_BEGIN]hi".toList]],
          [[mkTextPart "wwwwwwwwwwwwwwwwwwwwwwwwwwwwww".toList]]],
         [[[mkTextPart "done[RESPONSE_FINISHED]".toList]]]]).2
      = [⟨true, false, true, true,
            "wwwwwwwwwwwwwwwwwwwwwwwwwwwwww".toList, false⟩,
         ⟨true, false, false, true,
            "done[RESPONSE_FINISHED]".toList, true⟩]
    ∧ (false || !true) = false :=
  ⟨by decide, by decide⟩

/-- Invariant tying `isThoughtFinished` to `hasGotBeginToken` inside one
attempt: the thought phase is initially finished exactly when injection is
disabled, it can only finish after the begin token was seen, and every
buffered transition line presupposes the token. -/
def InvC3 (cfg : StreamCfg) (s : StreamState) : Prop :=
  (cfg.injectBegin = false → s.isThoughtFinished = true)
  ∧ (s.isThoughtFinished = true →
      cfg.injectBegin = false ∨ s.hasGotBeginToken = true)
  ∧ (∀ b ∈ s.linesBuffer, b.isTransitionLine = true →
      s.hasGotBeginToken = true)

theorem detectStep_cases (s : StreamState) (t : List Char) :
    detectStep s t = ⟨s.hasGotBeginToken, false, t, s.linesBuffer⟩
    ∨ ((detectStep s t).hasGotBeginToken = true
        ∧ (detectStep s t).isTransitionLine = true
        ∧ ∀ b ∈ (detectStep s t).linesBuffer, b ∈ s.linesBuffer) := by
  unfold detectStep
  dsimp only
  split_ifs <;>
    first
      | exact Or.inl rfl
      | (refine Or.inr ⟨rfl, rfl, ?_⟩
         intro b hb
         first
           | exact hb
           | exact (List.dropLast_sublist _).mem hb
           | exact (List.dropLast_sublist _).mem ((List.dropLast_sublist _).mem hb))

theorem invC3_ingest (cfg : StreamCfg) {s : StreamState} (h : InvC3 cfg s)
    (ev : List Part) : InvC3 cfg (ingestEvent s ev) := by
  obtain ⟨h1, h2, h3⟩ := h
  unfold ingestEvent
  dsimp only
  by_cases hc1 : ((parseParts (some ev)).hasThought
      && (parseParts (some ev)).responseText.isEmpty
      && !(parseParts (some ev)).hasFunctionCall) = true
  · rw [if_pos hc1]
    exact ⟨h1, h2, h3⟩
  · rw [if_neg hc1]
    by_cases hc2 : ((s.hasFunctionCallInStream
        || (parseParts (some ev)).hasFunctionCall) && !s.passthroughMode) = true
    · rw [if_pos hc2]
      refine ⟨fun hinj => ?_, fun hitf => ?_, fun b hb => ?_⟩
      · show (s.isThoughtFinished
            || s.linesBuffer.any BufLine.isTransitionLine) = true
        rw [h1 hinj]
        rfl
      · have hitf' : (s.isThoughtFinished
            || s.linesBuffer.any BufLine.isTransitionLine) = true := hitf
        rw [Bool.or_eq_true] at hitf'
        rcases hitf' with hitf'' | hany
        · exact h2 hitf''
        · rcases List.any_eq_true.mp hany with ⟨b, hb, hbt⟩
          exact Or.inr (h3 b hb hbt)
      · exact absurd hb (List.not_mem_nil b)
    · rw [if_neg hc2]
      by_cases hc3 : s.passthroughMode = true
      · rw [if_pos hc3]
        exact ⟨h1, h2, h3⟩
      · rw [if_neg hc3]
        have hcases := detectStep_cases
          { s with hasFunctionCallInStream :=
              s.hasFunctionCallInStream || (parseParts (some ev)).hasFunctionCall }
          (parseParts (some ev)).responseText
        generalize hD : detectStep
          { s with hasFunctionCallInStream :=
              s.hasFunctionCallInStream || (parseParts (some ev)).hasFunctionCall }
          (parseParts (some ev)).responseText = D at hcases ⊢
        rcases hcases with hnod | ⟨hdg, hdt, hdb⟩
        · subst hnod
          refine ⟨h1, fun hitf => h2 hitf, fun b hb hbt => ?_⟩
          rcases List.mem_append.mp hb with hb' | hb'
          · exact h3 b hb' hbt
          · rcases List.mem_singleton.mp hb' with rfl
            exact absurd hbt Bool.false_ne_true
        · exact ⟨h1, fun _ => Or.inr hdg, fun b hb hbt => hdg⟩

theorem forwardStep_hasGot (cfg : StreamCfg) (lineObj : BufLine)
    (s : StreamState) :
    (forwardStep cfg lineObj s).hasGotBeginToken = s.hasGotBeginToken := by
  unfold forwardStep
  dsimp only
  split_ifs <;> rfl

theorem forwardStep_itf (cfg : StreamCfg) (lineObj : BufLine)
    (s : StreamState) :
    (forwardStep cfg lineObj s).isThoughtFinished
      = (lineObj.isTransitionLine || s.isThoughtFinished) := by
  obtain ⟨lp, lt, ltx⟩ := lineObj
  unfold forwardStep
  dsimp only
  cases lt <;> split_ifs <;> simp_all

theorem invC3_forwardAux (cfg : StreamCfg) (safe : Nat) :
    ∀ (buf : List BufLine) (fwd : Nat) (s : StreamState),
    (cfg.injectBegin = false → s.isThoughtFinished = true) →
    (s.isThoughtFinished = true →
        cfg.injectBegin = false ∨ s.hasGotBeginToken = true) →
    (∀ b ∈ buf, b.isTransitionLine = true → s.hasGotBeginToken = true) →
    InvC3 cfg (forwardAux cfg safe fwd buf s) := by
  intro buf
  induction buf with
  | nil =>
    intro fwd s h1 h2 h3
    exact ⟨h1, h2, fun b hb => absurd hb (List.not_mem_nil b)⟩
  | cons lineObj rest ih =>
    intro fwd s h1 h2 h3
    unfold forwardAux
    split_ifs with hfits
    · apply ih
      · intro hinj
        rw [forwardStep_itf, h1 hinj, Bool.or_true]
      · intro hitf
        rw [forwardStep_itf, Bool.or_eq_true] at hitf
        rw [forwardStep_hasGot]
        rcases hitf with ht | hs
        · exact Or.inr (h3 lineObj (List.mem_cons_self _ _) ht)
        · exact h2 hs
      · intro b hb hbt
        rw [forwardStep_hasGot]
        exact h3 b (List.mem_cons_of_mem _ hb) hbt
    · exact ⟨h1, h2, h3⟩

theorem invC3_postChunk (cfg : StreamCfg) {s s' : StreamState}
    (h : InvC3 cfg s) :
    (postChunk cfg s = .continueStream s' → InvC3 cfg s')
    ∧ (postChunk cfg s = .abortAttempt s' → InvC3 cfg s') := by
  obtain ⟨h1, h2, h3⟩ := h
  unfold postChunk
  split_ifs with hlen hghost hbegin
  · exact ⟨fun hc => absurd hc (by simp), fun hc => by injection hc with hc; exact hc ▸ ⟨h1, h2, h3⟩⟩
  · exact ⟨fun hc => absurd hc (by simp), fun hc => by injection hc with hc; exact hc ▸ ⟨h1, h2, h3⟩⟩
  · refine ⟨fun hc => ?_, fun hc => absurd hc (by simp)⟩
    injection hc with hc
    rw [← hc]
    exact invC3_forwardAux cfg _ s.linesBuffer 0 s h1 h2 h3
  · exact ⟨fun hc => by injection hc with hc; exact hc ▸ ⟨h1, h2, h3⟩, fun hc => absurd hc (by simp)⟩

theorem invC3_runChunks (cfg : StreamCfg) :
    ∀ (chunks : List (List (List Part))) (s : StreamState), InvC3 cfg s →
    InvC3 cfg (runChunks cfg chunks s).1 := by
  intro chunks
  induction chunks with
  | nil => intro s h; exact h
  | cons chunk rest ih =>
    intro s h
    unfold runChunks
    have hing : InvC3 cfg (chunk.foldl ingestEvent s) := by
      clear ih
      induction chunk generalizing s with
      | nil => exact h
      | cons ev evs ihev => exact ihev (ingestEvent s ev) (invC3_ingest cfg h ev)
    cases hpc : processChunk cfg s chunk with
    | continueStream s' =>
      have hpc' : postChunk cfg (chunk.foldl ingestEvent s)
          = .continueStream s' := hpc
      exact ih s' ((invC3_postChunk cfg hing).1 hpc')
    | abortAttempt s' =>
      have hpc' : postChunk cfg (chunk.foldl ingestEvent s)
          = .abortAttempt s' := hpc
      exact (invC3_postChunk cfg hing).2 hpc' 

/-- **C3** (amended): at clean stream end the engine declares the attempt
complete exactly when `(hasGotBeginToken || isThoughtFinished) &&
(isResponseComplete(textBuffer) || isLite)`; the ends-with test is on the
whitespace-trimmed buffer.  On the FIRST attempt `isThoughtFinished` agrees
with `!injectBegin` unless a transition was detected, so there the decision
is exactly the claimed `(hasGotBeginToken ∨ ¬injectBegin) ∧ (trimmed buffer
ends with FINISHED ∨ lite)`; on later attempts `isThoughtFinished` persists
from the previous attempt and the claimed predicate is wrong (see the
counterexample). -/
theorem doneDecision_spec (cfg : StreamCfg) (chunks : List (List (List Part)))
    (s : StreamState) (ab : Bool)
    (h : runChunks cfg chunks (resetAttempt (initialStreamState cfg)) = (s, ab)) :
    doneDecision cfg s = true ↔
      ((s.hasGotBeginToken = true ∨ cfg.injectBegin = false)
        ∧ (FINISHED_TOKEN.isSuffixOf (jsTrim s.textBuffer) = true
            ∨ cfg.isLite = true)) := by
  have hinit : InvC3 cfg (resetAttempt (initialStreamState cfg)) := by
    refine ⟨fun hinj => ?_, fun hitf => ?_,
      fun b hb => absurd hb (List.not_mem_nil b)⟩
    · show (!cfg.injectBegin) = true
      rw [hinj]
      rfl
    · left
      have hni : (!cfg.injectBegin) = true := hitf
      simpa using hni
  have hinv := invC3_runChunks cfg chunks (resetAttempt (initialStreamState cfg))
    hinit
  rw [h] at hinv
  obtain ⟨h1, h2, h3⟩ := hinv
  unfold doneDecision isResponseComplete
  rw [Bool.and_eq_true, Bool.or_eq_true, Bool.or_eq_true]
  constructor
  · rintro ⟨hg | hitf, hc⟩
    · exact ⟨Or.inl hg, hc⟩
    · rcases h2 hitf with hinj | hg
      · exact ⟨Or.inr hinj, hc⟩
      · exact ⟨Or.inl hg, hc⟩
  · rintro ⟨hg | hinj, hc⟩
    · exact ⟨Or.inl hg, hc⟩
    · exact ⟨Or.inr (h1 hinj), hc⟩

theorem doneDecision_spec_witness :
    doneDecision ⟨true, false, false, []⟩
        (resetAttempt (initialStreamState ⟨true, false, false, []⟩)) = true
      ↔ (((resetAttempt
              (initialStreamState ⟨true, false, false, []⟩)).hasGotBeginToken
                = true
            ∨ (⟨true, false, false, []⟩ : StreamCfg).injectBegin = false)
          ∧ (FINISHED_TOKEN.isSuffixOf (jsTrim (resetAttempt
                (initialStreamState ⟨true, false, false, []⟩)).textBuffer)
                  = true
            ∨ (⟨true, false, false, []⟩ : StreamCfg).isLite = true)) :=
  doneDecision_spec ⟨true, false, false, []⟩ []
    (resetAttempt (initialStreamState ⟨true, false, false, []⟩)) false rfl

theorem occursAt_of_append_right {pat x y : List Char} {p : Nat}
    (h : occursAt pat (x ++ y) p) (hp : x.length ≤ p) :
    occursAt pat y (p - x.length) := by
  unfold occursAt at h ⊢
  rwa [List.drop_append_eq_append_drop, List.drop_of_length_le hp,
    List.nil_append] at h

theorem jsSliceLast_eq_elim {l : List Char} (h : l ≠ []) (d : List Char) :
    jsSliceLast l = l.getLast?.elim d (fun c => [c]) := by
  unfold jsSliceLast
  cases hg : l.getLast? with
  | none => exact absurd (List.getLast?_eq_none_iff.mp hg) h
  | some c => rfl

/-- The guard character of a detection branch whose candidate prefix is
`y.take k`, expressed through the character before position `|u| + k` of
the surrounding text `u ++ y`. -/
theorem guardChar_take (y u : List Char) (below rest0 : List BufLine)
    (ls : List Char) (k : Nat) (hk : k ≤ y.length)
    (hcfb : charFromBuf below ls
      = u.getLast?.elim (charFromBuf rest0 ls) (fun c => [c])) :
    guardChar (y.take k) below ls
      = ((u ++ y.take k).getLast?).elim (charFromBuf rest0 ls)
          (fun c => [c]) := by
  rcases Nat.eq_zero_or_pos k with rfl | hkpos
  · rw [List.take_zero, List.append_nil]
    unfold guardChar
    rw [if_pos (show ([] : List Char).isEmpty = true from rfl)]
    exact hcfb
  · have hlen : (y.take k).length = k := by
      simp [List.length_take, Nat.min_eq_left hk]
    have hne : y.take k ≠ [] := by
      intro h0
      rw [h0] at hlen
      simp at hlen
      omega
    unfold guardChar
    rw [if_neg (by simpa [List.isEmpty_iff] using hne)]
    rw [List.getLast?_append_of_ne_nil u hne]
    exact jsSliceLast_eq_elim hne _

/-- **C5**: begin-sentinel detection across 1, 2 or 3 events.  With the
thought phase active, no BEGIN seen yet, and at least two buffered lines
with non-empty texts, write `W` for the concatenation of the two most
recent buffered texts with the current event text.  If `W` has no BEGIN the
detector does nothing.  If BEGIN occurs in `W` exactly once, at `p`, then:
the transition is detected iff the character immediately preceding the
occurrence (`lastSendChar`-based context when the occurrence starts the
window) is not a backtick; on detection the candidate containing the
occurrence (current text alone, or joined with one or two popped buffered
texts) becomes the transition text. -/
theorem detectStep_spec (s : StreamState) (t : List Char)
    (rest : List BufLine) (b2 b1 : BufLine) (p : Nat)
    (hitf : s.isThoughtFinished = false)
    (hgot : s.hasGotBeginToken = false)
    (hbuf : s.linesBuffer = rest ++ [b2, b1])
    (hb1 : b1.text ≠ []) (hb2 : b2.text ≠ []) :
    (containsSeq BEGIN_TOKEN (b2.text ++ b1.text ++ t) = false →
        detectStep s t = ⟨false, false, t, rest ++ [b2, b1]⟩)
    ∧ (occursAt BEGIN_TOKEN (b2.text ++ b1.text ++ t) p →
        (∀ q < (b2.text ++ b1.text ++ t).length,
            occursAt BEGIN_TOKEN (b2.text ++ b1.text ++ t) q → q = p) →
        ((((b2.text ++ b1.text ++ t).take p).getLast?.elim
              (charFromBuf rest s.lastSendChar) (fun c => [c]) ≠ [backtick] →
          detectStep s t =
            if b2.text.length + b1.text.length ≤ p then
              ⟨true, true, t, rest ++ [b2, b1]⟩
            else if b2.text.length ≤ p then
              ⟨true, true, b1.text ++ t, rest ++ [b2]⟩
            else ⟨true, true, b2.text ++ b1.text ++ t, rest⟩)
        ∧ (((b2.text ++ b1.text ++ t).take p).getLast?.elim
              (charFromBuf rest s.lastSendChar) (fun c => [c]) = [backtick] →
            detectStep s t = ⟨false, false, t, rest ++ [b2, b1]⟩))) := by
  have hBne : BEGIN_TOKEN ≠ [] := by decide
  have hB16 : 0 < BEGIN_TOKEN.length := by decide
  have hassoc : rest ++ [b2, b1] = (rest ++ [b2]) ++ [b1] := by simp
  have htl1 : textOfLast (rest ++ [b2, b1]) = b1.text := by
    unfold textOfLast
    rw [hassoc, List.getLast?_concat]
  have hdl1 : (rest ++ [b2, b1]).dropLast = rest ++ [b2] := by
    rw [hassoc]
    exact List.dropLast_concat
  have htl2 : textOfLast (rest ++ [b2]) = b2.text := by
    unfold textOfLast
    rw [List.getLast?_concat]
  have hdl2 : (rest ++ [b2]).dropLast = rest := List.dropLast_concat
  constructor
  · intro hnc
    have hct : containsSeq BEGIN_TOKEN t = false := by
      by_contra hc
      rw [Bool.not_eq_false] at hc
      have hmono := containsSeq_mono (b2.text ++ b1.text) [] hc
      rw [List.append_nil] at hmono
      rw [hmono] at hnc
      simp at hnc
    have hcb1 : containsSeq BEGIN_TOKEN (b1.text ++ t) = false := by
      by_contra hc
      rw [Bool.not_eq_false] at hc
      have hmono := containsSeq_mono b2.text [] hc
      rw [List.append_nil, ← List.append_assoc] at hmono
      rw [hmono] at hnc
      simp at hnc
    unfold detectStep
    dsimp only
    rw [hitf, hgot, hbuf, htl1, hdl1, htl2]
    simp only [isFormalResponseStarted, Bool.not_false, Bool.true_and, hct,
      hcb1, hnc, Bool.and_false, Bool.false_and]
    simp
  · intro hocc huniqb
    have huniq : ∀ q, occursAt BEGIN_TOKEN (b2.text ++ b1.text ++ t) q →
        q = p := by
      intro q hq
      have hlq := occursAt_length hBne hq
      exact huniqb q (by omega) hq
    have hplen := occursAt_length hBne hocc
    by_cases hA : b2.text.length + b1.text.length ≤ p
    · have hxle : (b2.text ++ b1.text).length ≤ p := by
        rw [List.length_append]
        omega
      have hocc1 : occursAt BEGIN_TOKEN t
          (p - (b2.text.length + b1.text.length)) := by
        have h0 := occursAt_of_append_right (x := b2.text ++ b1.text)
          (y := t) hocc hxle
        rwa [List.length_append] at h0
      have hk1 : p - (b2.text.length + b1.text.length) ≤ t.length := by
        have := occursAt_length hBne hocc1
        omega
      have hsp : splitPre BEGIN_TOKEN t
          = t.take (p - (b2.text.length + b1.text.length)) := by
        apply splitPre_eq_take hocc1
        intro q hq
        have hlift := occursAt_append_right (b2.text ++ b1.text) hq
        have hqe := huniq _ hlift
        rw [List.length_append] at hqe
        omega
      have hcfbA : charFromBuf (rest ++ [b2, b1]) s.lastSendChar
          = (b2.text ++ b1.text).getLast?.elim
              (charFromBuf rest s.lastSendChar) (fun c => [c]) := by
        unfold charFromBuf
        rw [hassoc, List.getLast?_concat]
        dsimp only
        rw [if_neg (by simpa [List.isEmpty_iff] using hb1)]
        rw [List.getLast?_append_of_ne_nil b2.text hb1]
        exact jsSliceLast_eq_elim hb1 _
      have hWtake : (b2.text ++ b1.text ++ t).take p
          = (b2.text ++ b1.text)
              ++ t.take (p - (b2.text.length + b1.text.length)) := by
        rw [List.take_append_eq_append_take, List.take_of_length_le hxle,
          List.length_append]
      have hguard : guardChar (splitPre BEGIN_TOKEN t) (rest ++ [b2, b1])
            s.lastSendChar
          = ((b2.text ++ b1.text ++ t).take p).getLast?.elim
              (charFromBuf rest s.lastSendChar) (fun c => [c]) := by
        rw [hsp, guardChar_take t (b2.text ++ b1.text) (rest ++ [b2, b1]) rest
          s.lastSendChar _ hk1 hcfbA, ← hWtake]
      have hcond1 : isFormalResponseStarted t = true := by
        unfold isFormalResponseStarted
        exact (containsSeq_iff _ _).mpr ⟨_, hocc1⟩
      have hds : detectStep s t
          = (if (((b2.text ++ b1.text ++ t).take p).getLast?.elim
                  (charFromBuf rest s.lastSendChar) (fun c => [c]))
                != [backtick]
             then ⟨true, true, t, rest ++ [b2, b1]⟩
             else ⟨false, false, t, rest ++ [b2, b1]⟩) := by
        unfold detectStep
        dsimp only
        rw [hitf, hgot, hbuf]
        simp only [Bool.not_false, Bool.true_and]
        rw [if_pos hcond1, hguard]
      constructor
      · intro hne
        rw [hds, if_pos (bne_iff_ne.mpr hne), if_pos hA]
      · intro heq
        rw [hds, heq, if_neg (by simp)]
    · have hcond1f : ¬ isFormalResponseStarted t = true := by
        unfold isFormalResponseStarted
        intro hc
        obtain ⟨q, hq⟩ := (containsSeq_iff _ _).mp hc
        have hlift := occursAt_append_right (b2.text ++ b1.text) hq
        have hqe := huniq _ hlift
        rw [List.length_append] at hqe
        omega
      by_cases hBle : b2.text.length ≤ p
      · have hocc2 : occursAt BEGIN_TOKEN (b1.text ++ t)
            (p - b2.text.length) := by
          have hocc' : occursAt BEGIN_TOKEN (b2.text ++ (b1.text ++ t)) p := by
            rwa [← List.append_assoc]
          exact occursAt_of_append_right hocc' hBle
        have hk2 : p - b2.text.length ≤ (b1.text ++ t).length := by
          have := occursAt_length hBne hocc2
          omega
        have hsp : splitPre BEGIN_TOKEN (b1.text ++ t)
            = (b1.text ++ t).take (p - b2.text.length) := by
          apply splitPre_eq_take hocc2
          intro q hq
          have hlift := occursAt_append_right b2.text hq
          rw [← List.append_assoc] at hlift
          have hqe := huniq _ hlift
          omega
        have hcfbB : charFromBuf (rest ++ [b2]) s.lastSendChar
            = b2.text.getLast?.elim (charFromBuf rest s.lastSendChar)
                (fun c => [c]) := by
          unfold charFromBuf
          rw [List.getLast?_concat]
          dsimp only
          rw [if_neg (by simpa [List.isEmpty_iff] using hb2)]
          exact jsSliceLast_eq_elim hb2 _
        have hWtake : (b2.text ++ b1.text ++ t).take p
            = b2.text ++ (b1.text ++ t).take (p - b2.text.length) := by
          rw [List.append_assoc, List.take_append_eq_append_take,
            List.take_of_length_le hBle]
        have hguard : guardChar (splitPre BEGIN_TOKEN (b1.text ++ t))
              (rest ++ [b2]) s.lastSendChar
            = ((b2.text ++ b1.text ++ t).take p).getLast?.elim
                (charFromBuf rest s.lastSendChar) (fun c => [c]) := by
          rw [hsp, guardChar_take (b1.text ++ t) b2.text (rest ++ [b2]) rest
            s.lastSendChar _ hk2 hcfbB, ← hWtake]
        have hcond2 : (decide (1 ≤ (rest ++ [b2, b1]).length)
            && isFormalResponseStarted (b1.text ++ t)) = true := by
          rw [Bool.and_eq_true]
          refine ⟨by simp, ?_⟩
          unfold isFormalResponseStarted
          exact (containsSeq_iff _ _).mpr ⟨_, hocc2⟩
        have hds : detectStep s t
            = (if (((b2.text ++ b1.text ++ t).take p).getLast?.elim
                    (charFromBuf rest s.lastSendChar) (fun c => [c]))
                  != [backtick]
               then ⟨true, true, b1.text ++ t, rest ++ [b2]⟩
               else ⟨false, false, t, rest ++ [b2, b1]⟩) := by
          unfold detectStep
          dsimp only
          rw [hitf, hgot, hbuf, htl1, hdl1]
          simp only [Bool.not_false, Bool.true_and]
          rw [if_neg hcond1f, if_pos hcond2, hguard]
        constructor
        · intro hne
          rw [hds, if_pos (bne_iff_ne.mpr hne), if_neg hA, if_pos hBle]
        · intro heq
          rw [hds, heq, if_neg (by simp)]
      · have hcond2f : ¬ (decide (1 ≤ (rest ++ [b2, b1]).length)
            && isFormalResponseStarted (b1.text ++ t)) = true := by
          rw [Bool.and_eq_true]
          rintro ⟨-, hc⟩
          unfold isFormalResponseStarted at hc
          obtain ⟨q, hq⟩ := (containsSeq_iff _ _).mp hc
          have hlift := occursAt_append_right b2.text hq
          rw [← List.append_assoc] at hlift
          have hqe := huniq _ hlift
          omega
        have hk3 : p ≤ (b2.text ++ b1.text ++ t).length := by omega
        have hsp : splitPre BEGIN_TOKEN (b2.text ++ b1.text ++ t)
            = (b2.text ++ b1.text ++ t).take p := by
          apply splitPre_eq_take hocc
          intro q hq
          have hqe := huniq _ hq
          omega
        have hguard : guardChar
              (splitPre BEGIN_TOKEN (b2.text ++ b1.text ++ t)) rest
              s.lastSendChar
            = ((b2.text ++ b1.text ++ t).take p).getLast?.elim
                (charFromBuf rest s.lastSendChar) (fun c => [c]) := by
          rw [hsp, guardChar_take (b2.text ++ b1.text ++ t) [] rest rest
            s.lastSendChar _ hk3 rfl, List.nil_append]
        have hcond3 : (decide (2 ≤ (rest ++ [b2, b1]).length)
            && isFormalResponseStarted (b2.text ++ b1.text ++ t)) = true := by
          rw [Bool.and_eq_true]
          refine ⟨by simp, ?_⟩
          unfold isFormalResponseStarted
          exact (containsSeq_iff _ _).mpr ⟨_, hocc⟩
        have hds : detectStep s t
            = (if (((b2.text ++ b1.text ++ t).take p).getLast?.elim
                    (charFromBuf rest s.lastSendChar) (fun c => [c]))
                  != [backtick]
               then ⟨true, true, b2.text ++ b1.text ++ t, rest⟩
               else ⟨false, false, t, rest ++ [b2, b1]⟩) := by
          unfold detectStep
          dsimp only
          rw [hitf, hgot, hbuf, htl1, hdl1, htl2, hdl2]
          simp only [Bool.not_false, Bool.true_and]
          rw [if_neg hcond1f, if_neg hcond2f, if_pos hcond3, hguard]
        constructor
        · intro hne
          rw [hds, if_pos (bne_iff_ne.mpr hne), if_neg hA, if_neg hBle]
        · intro heq
          rw [hds, heq, if_neg (by simp)]

/-- Witness for `detectStep_spec`: BEGIN split as
`"x[RESP" / "ONSE_BE" / "GIN]y"` across the two buffered lines and the
current event is detected with both buffered lines popped, the guard
character being the `x` before the occurrence. -/
theorem detectStep_spec_witness :
    detectStep
        ⟨false, true, [], false, false, false, [],
          [⟨[], false, "x[RESP".toList⟩, ⟨[], false, "ONSE_BE".toList⟩],
          [], []⟩
        "GIN]y".toList
      = ⟨true, true, "x[RESPONSE_BEGIN]y".toList, []⟩ :=
  (((detectStep_spec
      ⟨false, true, [], false, false, false, [],
        [⟨[], false, "x[RESP".toList⟩, ⟨[], false, "ONSE_BE".toList⟩],
        [], []⟩
      "GIN]y".toList [] ⟨[], false, "x[RESP".toList⟩
      ⟨[], false, "ONSE_BE".toList⟩ 1 rfl rfl rfl (by decide) (by decide)).2
    (by decide) (by decide)).1 (by decide)).trans (by decide)

/-- The formal text of one upstream event. -/
def eventText (ev : List Part) : List Char := (parseParts (some ev)).responseText

/-- The formal text of one upstream chunk. -/
def chunkText (chunk : List (List Part)) : List Char :=
  (chunk.map eventText).flatten

/-- The total upstream formal text of an attempt. -/
def chunksText (chunks : List (List (List Part))) : List Char :=
  (chunks.map chunkText).flatten

theorem concatTexts_append (a b : List BufLine) :
    concatTexts (a ++ b) = concatTexts a ++ concatTexts b := by
  unfold concatTexts
  rw [List.map_append, List.flatten_append]

theorem concatTexts_cons (b : BufLine) (l : List BufLine) :
    concatTexts (b :: l) = b.text ++ concatTexts l := rfl

theorem parseParts_hasFC_none (ev : List Part)
    (h : ∀ p ∈ ev, p.functionCall = none) :
    (parseParts (some ev)).hasFunctionCall = false := by
  show (ev.foldl parsePartsStep emptyParseResult).hasFunctionCall = false
  rw [foldl_prs_hasFunctionCall]
  simp only [emptyParseResult, Bool.false_or]
  rw [List.any_eq_false]
  intro p hp
  simp [isFcBranch, h p hp]

theorem detectStep_of_itf {s : StreamState} (h : s.isThoughtFinished = true)
    (t : List Char) :
    detectStep s t = ⟨s.hasGotBeginToken, false, t, s.linesBuffer⟩ := by
  unfold detectStep
  rw [h]
  simp

theorem cleanFinalText_prefix (l : List Char) : cleanFinalText l <+: l := by
  induction l with
  | nil => exact List.prefix_refl _
  | cons c t ih =>
    unfold cleanFinalText
    by_cases h : cleanMatchAt (c :: t) = true
    · simp [h]
    · simp only [h, if_false]
      exact List.cons_prefix_cons.mpr ⟨rfl, ih⟩

theorem cleanFinalText_length_of_terminal :
    ∀ (l : List Char) (q : Nat), occursAt FINISHED_TOKEN l q →
      q + FINISHED_TOKEN.length = l.length →
      (cleanFinalText l).length ≤ q := by
  intro l
  induction l with
  | nil =>
    intro q hq hlen
    simp [cleanFinalText]
  | cons c t ih =>
    intro q hq hlen
    unfold cleanFinalText
    by_cases hm : cleanMatchAt (c :: t) = true
    · simp [hm]
    · cases q with
      | zero =>
        exfalso
        apply hm
        have hpre : FINISHED_TOKEN <+: (c :: t) := hq
        have hEq : FINISHED_TOKEN = c :: t :=
          List.IsPrefix.eq_of_length hpre (by simpa using hlen)
        have hts : tokThenSpaces (c :: t) = true := by
          rw [← hEq]
          decide
        simp [cleanMatchAt, hts]
      | succ q' =>
        have hq' : occursAt FINISHED_TOKEN t q' := hq
        have hlen' : q' + FINISHED_TOKEN.length = t.length := by
          rw [List.length_cons] at hlen
          omega
        have hle := ih q' hq' hlen'
        rw [if_neg hm, List.length_cons]
        omega

theorem cleanFinalText_no_token (l : List Char)
    (h : ∀ q, occursAt FINISHED_TOKEN l q →
      q + FINISHED_TOKEN.length = l.length) :
    containsSeq FINISHED_TOKEN (cleanFinalText l) = false := by
  by_contra hc
  rw [Bool.not_eq_false, containsSeq_iff] at hc
  obtain ⟨q, hq⟩ := hc
  obtain ⟨w, hw⟩ := cleanFinalText_prefix l
  have hql : occursAt FINISHED_TOKEN l q := by
    rw [← hw]
    exact occursAt_append_left w hq
  have h1 := h q hql
  have h2 := occursAt_length (by decide) hq
  have h3 := cleanFinalText_length_of_terminal l q hql h1
  have h19 : 0 < FINISHED_TOKEN.length := by decide
  omega

theorem isResponseComplete_of_suffix {l : List Char}
    (h : FINISHED_TOKEN <:+ l) : isResponseComplete l = true := by
  obtain ⟨w, rfl⟩ := h
  unfold isResponseComplete jsTrim
  have hfin : FINISHED_TOKEN.dropWhile jsSpace = FINISHED_TOKEN := by decide
  have hd : (w ++ FINISHED_TOKEN).dropWhile jsSpace
      = w.dropWhile jsSpace ++ FINISHED_TOKEN := by
    rw [List.dropWhile_append]
    by_cases he : (w.dropWhile jsSpace).isEmpty
    · rw [if_pos he, hfin, List.isEmpty_iff.mp he, List.nil_append]
    · rw [if_neg he]
  rw [hd, List.reverse_append]
  have hrev : FINISHED_TOKEN.reverse = ']' :: "DEHSINIF_ESNOPSER[".toList := by
    decide
  rw [hrev, List.cons_append,
    List.dropWhile_cons_of_neg (by decide), ← List.cons_append, ← hrev,
    ← List.reverse_append, List.reverse_reverse]
  rw [List.isSuffixOf_iff_suffix]
  exact ⟨w.dropWhile jsSpace, rfl⟩

theorem bufResponseText_eq_concatTexts (buf : List BufLine)
    (h : ∀ b ∈ buf, b.parts = [mkTextPart b.text]) :
    bufResponseText buf = concatTexts buf := by
  induction buf with
  | nil => rfl
  | cons b rest ih =>
    have hb := h b (List.mem_cons_self _ _)
    have hrest := ih (fun x hx => h x (List.mem_cons_of_mem _ hx))
    unfold bufResponseText at hrest ⊢
    rw [concatTexts_cons, List.map_cons, List.flatten_cons, hb,
      List.filter_append, List.map_append, List.flatten_append, hrest]
    by_cases ht : b.text.isEmpty
    · rw [List.isEmpty_iff.mp ht]
      simp [truthyText, mkTextPart]
    · have ht' : b.text.isEmpty = false := by simpa using ht
      simp [truthyText, mkTextPart, textOrEmpty, JsVal.truthy, ht']

/-- Every event already written to the client either has only thought
parts (no formal text) or is a single-text event whose text `x` sits in the
current total formal text `U` with at least `LOOKAHEAD_SIZE` characters of
`U` after it. -/
def OutC1 (out : List OutEvent) (U : List Char) : Prop :=
  ∀ ev ∈ out,
    (∀ p ∈ ev.parts, p.thought.truthy = true)
    ∨ (∃ x u v, ev.parts = [mkTextPart x]
        ∧ u ++ x ++ v = U ∧ LOOKAHEAD_SIZE ≤ v.length)

/-- The state invariant of an engine run with `injectBegin = false` and no
function calls in the stream: the thought phase is over from the start, no
passthrough, the buffered lines are plain single-text lines whose texts
concatenate to `textBuffer`, and the output satisfies `OutC1` for the
current total formal text. -/
def InvC1 (s : StreamState) : Prop :=
  s.isThoughtFinished = true
  ∧ s.passthroughMode = false
  ∧ s.hasFunctionCallInStream = false
  ∧ concatTexts s.linesBuffer = s.textBuffer
  ∧ (∀ b ∈ s.linesBuffer,
      b.parts = [mkTextPart b.text] ∧ b.isTransitionLine = false)
  ∧ OutC1 s.output (s.accumulatedTextThisAttempt ++ s.textBuffer)

theorem OutC1_extend {out : List OutEvent} {U : List Char} (ext : List Char)
    (h : OutC1 out U) : OutC1 out (U ++ ext) := by
  intro ev hev
  rcases h ev hev with hth | ⟨x, u, v, hp, hU, hv⟩
  · exact Or.inl hth
  · refine Or.inr ⟨x, u, v ++ ext, hp, ?_, ?_⟩
    · rw [← hU]
      simp [List.append_assoc]
    · rw [List.length_append]
      omega

theorem invC1_ingest {s : StreamState} (h : InvC1 s) (ev : List Part)
    (hfc : ∀ p ∈ ev, p.functionCall = none) :
    InvC1 (ingestEvent s ev)
    ∧ (ingestEvent s ev).accumulatedTextThisAttempt
        ++ (ingestEvent s ev).textBuffer
      = s.accumulatedTextThisAttempt ++ s.textBuffer ++ eventText ev := by
  obtain ⟨h1, h2, h3, h4, h5, h6⟩ := h
  have hpfc : (parseParts (some ev)).hasFunctionCall = false :=
    parseParts_hasFC_none ev hfc
  unfold ingestEvent
  dsimp only
  by_cases hc1 : ((parseParts (some ev)).hasThought
      && (parseParts (some ev)).responseText.isEmpty
      && !(parseParts (some ev)).hasFunctionCall) = true
  · rw [if_pos hc1]
    have hemp : (parseParts (some ev)).responseText = [] := by
      rw [Bool.and_eq_true, Bool.and_eq_true] at hc1
      exact List.isEmpty_iff.mp hc1.1.2
    refine ⟨⟨h1, h2, ?_, h4, h5, h6⟩, ?_⟩
    · show (s.hasFunctionCallInStream
          || (parseParts (some ev)).hasFunctionCall) = false
      rw [h3, hpfc]
      rfl
    · show s.accumulatedTextThisAttempt ++ s.textBuffer = _
      rw [eventText, hemp, List.append_nil]
  · rw [if_neg hc1]
    have hc2 : ¬ ((s.hasFunctionCallInStream
        || (parseParts (some ev)).hasFunctionCall)
          && !s.passthroughMode) = true := by
      rw [h3, hpfc]
      simp
    rw [if_neg hc2]
    have hc3 : ¬ s.passthroughMode = true := by
      rw [h2]
      simp
    rw [if_neg hc3]
    have hds := detectStep_of_itf
      (s := { s with hasFunctionCallInStream :=
          s.hasFunctionCallInStream || (parseParts (some ev)).hasFunctionCall })
      (h := h1) ((parseParts (some ev)).responseText)
    rw [hds]
    dsimp only
    have hfil : ev.filter (fun p => p.functionCall.isSome) = [] := by
      rw [List.filter_eq_nil_iff]
      intro p hp
      simp [hfc p hp]
    rw [h1, hfil]
    refine ⟨⟨rfl, h2, ?_, ?_, ?_, ?_⟩, ?_⟩
    · show (s.hasFunctionCallInStream
          || (parseParts (some ev)).hasFunctionCall) = false
      rw [h3, hpfc]
      rfl
    · show concatTexts (s.linesBuffer ++ [⟨_, _, _⟩])
        = s.textBuffer ++ (parseParts (some ev)).responseText
      rw [concatTexts_append, h4]
      simp [concatTexts]
    · intro b hb
      rcases List.mem_append.mp hb with hb' | hb'
      · exact h5 b hb'
      · rcases List.mem_singleton.mp hb' with rfl
        exact ⟨rfl, rfl⟩
    · show OutC1 s.output (s.accumulatedTextThisAttempt
        ++ (s.textBuffer ++ (parseParts (some ev)).responseText))
      have hext := OutC1_extend (parseParts (some ev)).responseText h6
      rw [List.append_assoc] at hext
      exact hext
    · show s.accumulatedTextThisAttempt
          ++ (s.textBuffer ++ (parseParts (some ev)).responseText) = _
      rw [eventText, ← List.append_assoc]

theorem forwardStep_c1 (cfg : StreamCfg) (lineObj : BufLine) (s : StreamState)
    (hitf : s.isThoughtFinished = true)
    (hlt : lineObj.isTransitionLine = false) :
    forwardStep cfg lineObj s
      = { s with
          isFirstOutput := false,
          output := s.output
            ++ (if s.isFirstOutput && cfg.isIncludeThoughts then
                  [OutEvent.mk [Part.mk (some cfg.startOfThought) .jtrue none]
                    none .preamble]
                else [])
            ++ [OutEvent.mk lineObj.parts none .fwd],
          accumulatedTextThisAttempt :=
            s.accumulatedTextThisAttempt ++ lineObj.text,
          lastSendChar :=
            jsSliceLast (s.accumulatedTextThisAttempt ++ lineObj.text),
          textBuffer := s.textBuffer.drop lineObj.text.length } := by
  unfold forwardStep
  dsimp only
  rw [hlt, hitf]
  by_cases hp : (s.isFirstOutput && cfg.isIncludeThoughts) = true
  · rw [if_pos hp, if_pos hp]
    dsimp only
    rw [if_neg (by simp), if_pos (by simp)]
  · rw [if_neg hp, if_neg hp]
    rw [if_neg (by simp), if_pos (by simp [hitf])]
    simp
    exact hitf

theorem invC1_forwardAux (cfg : StreamCfg) (safe : Nat) :
    ∀ (buf : List BufLine) (fwd : Nat) (s : StreamState),
    s.isThoughtFinished = true →
    concatTexts buf = s.textBuffer →
    (∀ b ∈ buf, b.parts = [mkTextPart b.text] ∧ b.isTransitionLine = false) →
    OutC1 s.output (s.accumulatedTextThisAttempt ++ s.textBuffer) →
    safe + LOOKAHEAD_SIZE ≤ fwd + s.textBuffer.length →
    ((forwardAux cfg safe fwd buf s).isThoughtFinished = true
    ∧ (forwardAux cfg safe fwd buf s).passthroughMode = s.passthroughMode
    ∧ (forwardAux cfg safe fwd buf s).hasFunctionCallInStream
        = s.hasFunctionCallInStream
    ∧ concatTexts (forwardAux cfg safe fwd buf s).linesBuffer
        = (forwardAux cfg safe fwd buf s).textBuffer
    ∧ (∀ b ∈ (forwardAux cfg safe fwd buf s).linesBuffer,
        b.parts = [mkTextPart b.text] ∧ b.isTransitionLine = false)
    ∧ OutC1 (forwardAux cfg safe fwd buf s).output
        ((forwardAux cfg safe fwd buf s).accumulatedTextThisAttempt
          ++ (forwardAux cfg safe fwd buf s).textBuffer)
    ∧ (forwardAux cfg safe fwd buf s).accumulatedTextThisAttempt
          ++ (forwardAux cfg safe fwd buf s).textBuffer
        = s.accumulatedTextThisAttempt ++ s.textBuffer) := by
  intro buf
  induction buf with
  | nil =>
    intro fwd s h1 hcon hparts hout harith
    exact ⟨h1, rfl, rfl, hcon, fun b hb => absurd hb (List.not_mem_nil b),
      hout, rfl⟩
  | cons lineObj rest ih =>
    intro fwd s h1 hcon hparts hout harith
    obtain ⟨hlp, hlt⟩ := hparts lineObj (List.mem_cons_self _ _)
    rw [concatTexts_cons] at hcon
    unfold forwardAux
    by_cases hfits : fwd + lineObj.text.length ≤ safe
    · rw [if_pos hfits, forwardStep_c1 cfg lineObj s h1 hlt]
      have hxle : lineObj.text.length ≤ s.textBuffer.length := by
        rw [← hcon, List.length_append]
        omega
      have hdrop : s.textBuffer.drop lineObj.text.length = concatTexts rest := by
        rw [← hcon]
        exact List.drop_left _ _
      have hfin := ih (fwd + lineObj.text.length)
        { s with
          isFirstOutput := false,
          output := s.output
            ++ (if s.isFirstOutput && cfg.isIncludeThoughts then
                  [OutEvent.mk [Part.mk (some cfg.startOfThought) .jtrue none]
                    none .preamble]
                else [])
            ++ [OutEvent.mk lineObj.parts none .fwd],
          accumulatedTextThisAttempt :=
            s.accumulatedTextThisAttempt ++ lineObj.text,
          lastSendChar :=
            jsSliceLast (s.accumulatedTextThisAttempt ++ lineObj.text),
          textBuffer := s.textBuffer.drop lineObj.text.length }
        h1 (by dsimp only; rw [hdrop]) (fun b hb => hparts b (List.mem_cons_of_mem _ hb))
        ?_ ?_
      · refine ⟨hfin.1, hfin.2.1, hfin.2.2.1, hfin.2.2.2.1, hfin.2.2.2.2.1,
          hfin.2.2.2.2.2.1, hfin.2.2.2.2.2.2.trans ?_⟩
        show s.accumulatedTextThisAttempt ++ lineObj.text
            ++ s.textBuffer.drop lineObj.text.length = _
        rw [hdrop, List.append_assoc, ← hcon]
      · -- OutC1 for the extended output
        dsimp only
        rw [hdrop]
        intro ev hev
        rcases List.mem_append.mp hev with hev1 | hev2
        · rcases List.mem_append.mp hev1 with hold | hpre
          · have h6' := hout ev hold
            rcases h6' with hth | ⟨x, u, v, hp, hU, hv⟩
            · exact Or.inl hth
            · refine Or.inr ⟨x, u, v, hp, ?_, hv⟩
              rw [hU, ← hcon]
              rw [List.append_assoc]
          · by_cases hc : (s.isFirstOutput && cfg.isIncludeThoughts) = true
            · rw [if_pos hc] at hpre
              rcases List.mem_singleton.mp hpre with rfl
              refine Or.inl ?_
              intro p hp
              rcases List.mem_singleton.mp hp with rfl
              rfl
            · rw [if_neg hc] at hpre
              exact absurd hpre (List.not_mem_nil ev)
        · rcases List.mem_singleton.mp hev2 with rfl
          refine Or.inr ⟨lineObj.text, s.accumulatedTextThisAttempt,
            concatTexts rest, hlp, ?_, ?_⟩
          · rw [List.append_assoc]
          · have hlen : s.textBuffer.length
                = lineObj.text.length + (concatTexts rest).length := by
              rw [← hcon, List.length_append]
            omega
      · dsimp only
        rw [List.length_drop]
        omega
    · rw [if_neg hfits]
      refine ⟨h1, rfl, rfl, ?_, hparts, hout, rfl⟩
      show concatTexts (lineObj :: rest) = s.textBuffer
      rw [concatTexts_cons]
      exact hcon

theorem invC1_postChunk (cfg : StreamCfg) {s : StreamState} (h : InvC1 s) :
    (∀ s', postChunk cfg s = .continueStream s' →
      InvC1 s' ∧ s'.accumulatedTextThisAttempt ++ s'.textBuffer
        = s.accumulatedTextThisAttempt ++ s.textBuffer)
    ∧ (∀ s', postChunk cfg s = .abortAttempt s' →
      InvC1 s' ∧ s'.accumulatedTextThisAttempt ++ s'.textBuffer
        = s.accumulatedTextThisAttempt ++ s.textBuffer) := by
  obtain ⟨h1, h2, h3, h4, h5, h6⟩ := h
  unfold postChunk
  split_ifs with hlen hghost hbegin
  · refine ⟨fun s' hc => absurd hc (by simp), fun s' hc => ?_⟩
    injection hc with hc
    exact hc ▸ ⟨⟨h1, h2, h3, h4, h5, h6⟩, rfl⟩
  · refine ⟨fun s' hc => absurd hc (by simp), fun s' hc => ?_⟩
    injection hc with hc
    exact hc ▸ ⟨⟨h1, h2, h3, h4, h5, h6⟩, rfl⟩
  · refine ⟨fun s' hc => ?_, fun s' hc => absurd hc (by simp)⟩
    injection hc with hc
    have hfa := invC1_forwardAux cfg (s.textBuffer.length - LOOKAHEAD_SIZE)
      s.linesBuffer 0 s h1 h4 h5 h6 (by omega)
    rw [← hc]
    exact ⟨⟨hfa.1, hfa.2.1.trans h2, hfa.2.2.1.trans h3, hfa.2.2.2.1,
      hfa.2.2.2.2.1, hfa.2.2.2.2.2.1⟩, hfa.2.2.2.2.2.2⟩
  · refine ⟨fun s' hc => ?_, fun s' hc => absurd hc (by simp)⟩
    injection hc with hc
    exact hc ▸ ⟨⟨h1, h2, h3, h4, h5, h6⟩, rfl⟩

theorem invC1_runChunks (cfg : StreamCfg) :
    ∀ (chunks : List (List (List Part))) (s : StreamState), InvC1 s →
    (∀ chunk ∈ chunks, ∀ ev ∈ chunk, ∀ p ∈ ev, p.functionCall = none) →
    InvC1 (runChunks cfg chunks s).1
    ∧ ((runChunks cfg chunks s).2 = false →
        (runChunks cfg chunks s).1.accumulatedTextThisAttempt
            ++ (runChunks cfg chunks s).1.textBuffer
          = s.accumulatedTextThisAttempt ++ s.textBuffer
              ++ chunksText chunks) := by
  intro chunks
  induction chunks with
  | nil =>
    intro s h hfc
    refine ⟨h, fun _ => ?_⟩
    show s.accumulatedTextThisAttempt ++ s.textBuffer = _
    rw [chunksText]
    simp
  | cons chunk rest ih =>
    intro s h hfc
    have hing : InvC1 (chunk.foldl ingestEvent s)
        ∧ (chunk.foldl ingestEvent s).accumulatedTextThisAttempt
            ++ (chunk.foldl ingestEvent s).textBuffer
          = s.accumulatedTextThisAttempt ++ s.textBuffer ++ chunkText chunk := by
      have hfc1 := hfc chunk (List.mem_cons_self _ _)
      clear ih hfc
      induction chunk generalizing s with
      | nil =>
        refine ⟨h, ?_⟩
        show s.accumulatedTextThisAttempt ++ s.textBuffer = _
        rw [chunkText]
        simp
      | cons ev evs ihev =>
        have hstep := invC1_ingest h ev (hfc1 ev (List.mem_cons_self _ _))
        have hrest := ihev (ingestEvent s ev) hstep.1
          (fun e he => hfc1 e (List.mem_cons_of_mem _ he))
        refine ⟨hrest.1, ?_⟩
        show (evs.foldl ingestEvent (ingestEvent s ev)).accumulatedTextThisAttempt
            ++ (evs.foldl ingestEvent (ingestEvent s ev)).textBuffer = _
        rw [hrest.2, hstep.2]
        simp [chunkText, List.append_assoc]
    unfold runChunks
    cases hpc : processChunk cfg s chunk with
    | continueStream s' =>
      have hpc' : postChunk cfg (chunk.foldl ingestEvent s)
          = .continueStream s' := hpc
      have hpost := (invC1_postChunk cfg hing.1).1 s' hpc'
      have hrec := ih s' hpost.1 (fun c hc => hfc c (List.mem_cons_of_mem _ hc))
      refine ⟨hrec.1, fun hb => ?_⟩
      rw [hrec.2 hb, hpost.2, hing.2]
      simp [chunksText, List.append_assoc]
    | abortAttempt s' =>
      have hpc' : postChunk cfg (chunk.foldl ingestEvent s)
          = .abortAttempt s' := hpc
      have hpost := (invC1_postChunk cfg hing.1).2 s' hpc'
      exact ⟨hpost.1, fun hb => absurd hb (by simp)⟩

/-- **C1** (amended): for an engine-engaged streaming request with begin
injection disabled, no function calls in the stream, a single attempt that
was not aborted, and whose total upstream formal text contains the FINISHED
token only as its very last characters (the model behaviour the protocol
prescribes), no client-visible event carries formal text containing
FINISHED: forwarded lines end at least LOOKAHEAD_SIZE characters before the
end of the text streamed so far, and the synthesised terminal text is
cleaned.  (As stated the claim is false: a mid-text FINISHED is forwarded
verbatim, see the counterexample; and after an abort the exhausted-retries
path flushes residual lines uncleaned.) -/
theorem streamingFinished_spec (cfg : StreamCfg)
    (chunks : List (List (List Part)))
    (hinj : cfg.injectBegin = false)
    (hnofc : ∀ chunk ∈ chunks, ∀ ev ∈ chunk, ∀ p ∈ ev, p.functionCall = none)
    (hab : (runChunks cfg chunks (resetAttempt (initialStreamState cfg))).2
      = false)
    (hterm : ∀ q < (chunksText chunks).length,
        occursAt FINISHED_TOKEN (chunksText chunks) q →
        q + FINISHED_TOKEN.length = (chunksText chunks).length) :
    ∀ ev ∈ (handleStreamingEngine cfg [chunks]).1.output, ∀ p ∈ ev.parts,
      p.thought.truthy = false →
      containsSeq FINISHED_TOKEN (textOrEmpty p) = false := by
  have hF19 : FINISHED_TOKEN.length = 19 := by decide
  have hLA : LOOKAHEAD_SIZE = 23 := by decide
  have hterm' : ∀ q, occursAt FINISHED_TOKEN (chunksText chunks) q →
      q + FINISHED_TOKEN.length = (chunksText chunks).length := by
    intro q hq
    have hl := occursAt_length (by decide) hq
    exact hterm q (by omega) hq
  have hinit : InvC1 (resetAttempt (initialStreamState cfg)) := by
    refine ⟨?_, rfl, rfl, rfl, fun b hb => absurd hb (List.not_mem_nil b),
      fun e he => absurd he (List.not_mem_nil e)⟩
    show (!cfg.injectBegin) = true
    rw [hinj]
    rfl
  rcases hrg : runChunks cfg chunks (resetAttempt (initialStreamState cfg))
    with ⟨sf, ab⟩
  rw [hrg] at hab
  have hab' : ab = false := hab
  subst hab'
  obtain ⟨hinv, hU⟩ := invC1_runChunks cfg chunks
    (resetAttempt (initialStreamState cfg)) hinit hnofc
  rw [hrg] at hinv hU
  obtain ⟨k1, k2, k3, k4, k5, k6⟩ := hinv
  dsimp only at k1 k2 k3 k4 k5 k6
  have hUeq : sf.accumulatedTextThisAttempt ++ sf.textBuffer
      = chunksText chunks := by
    have h0 := hU rfl
    simpa [resetAttempt, initialStreamState] using h0
  have htb_term : ∀ q, occursAt FINISHED_TOKEN sf.textBuffer q →
      q + FINISHED_TOKEN.length = sf.textBuffer.length := by
    intro q hq
    have hlift := occursAt_append_right sf.accumulatedTextThisAttempt hq
    rw [hUeq] at hlift
    have h1t := hterm' _ hlift
    have h2t : (chunksText chunks).length
        = sf.accumulatedTextThisAttempt.length + sf.textBuffer.length := by
      rw [← hUeq, List.length_append]
    omega
  have hmain : ∀ ev ∈ sf.output, ∀ p ∈ ev.parts,
      p.thought.truthy = false →
      containsSeq FINISHED_TOKEN (textOrEmpty p) = false := by
    intro ev hev p hp hth
    rcases k6 ev hev with hthp | ⟨x, u, v, hpx, hXU, hv⟩
    · have hcontr := hthp p hp
      rw [hth] at hcontr
      exact absurd hcontr (by decide)
    · rw [hpx] at hp
      rcases List.mem_singleton.mp hp with rfl
      by_contra hc
      rw [Bool.not_eq_false, containsSeq_iff] at hc
      obtain ⟨q, hq⟩ := hc
      have hq' : occursAt FINISHED_TOKEN x q := by
        simpa [textOrEmpty, mkTextPart] using hq
      have hocc : occursAt FINISHED_TOKEN (chunksText chunks) (u.length + q) := by
        rw [← hUeq, ← hXU]
        exact occursAt_append_left v (occursAt_append_right u hq')
      have h1t := hterm' _ hocc
      have hlen2 : (chunksText chunks).length
          = u.length + x.length + v.length := by
        rw [← hUeq, ← hXU]
        simp only [List.length_append]
      have h3t := occursAt_length (by decide) hq'
      omega
  by_cases hdone : doneDecision cfg sf = true
  · have heng : (handleStreamingEngine cfg [chunks]).1.output
        = sf.output ++ [terminalStopEvent sf.linesBuffer] := by
      unfold handleStreamingEngine runAttempts
      rw [hrg]
      simp [k2, hdone]
    rw [heng]
    intro ev hev p hp hth
    rcases List.mem_append.mp hev with hold | hterm_ev
    · exact hmain ev hold p hp hth
    · rcases List.mem_singleton.mp hterm_ev with rfl
      unfold terminalStopEvent at hp
      dsimp only at hp
      rcases List.mem_append.mp hp with hptt | hpft
      · by_cases htt : (bufThoughtText sf.linesBuffer).isEmpty
        · rw [if_pos htt] at hptt
          exact absurd hptt (List.not_mem_nil p)
        · rw [if_neg htt] at hptt
          rcases List.mem_singleton.mp hptt with rfl
          exact absurd hth (by simp [JsVal.truthy])
      · by_cases hft : (cleanFinalText (bufResponseText sf.linesBuffer)).isEmpty
        · rw [if_pos hft] at hpft
          exact absurd hpft (List.not_mem_nil p)
        · rw [if_neg hft] at hpft
          rcases List.mem_singleton.mp hpft with rfl
          show containsSeq FINISHED_TOKEN
            (textOrEmpty (mkTextPart
              (cleanFinalText (bufResponseText sf.linesBuffer)))) = false
          have hbrt : bufResponseText sf.linesBuffer = sf.textBuffer := by
            rw [bufResponseText_eq_concatTexts sf.linesBuffer
              (fun b hb => (k5 b hb).1)]
            exact k4
          rw [show textOrEmpty (mkTextPart
              (cleanFinalText (bufResponseText sf.linesBuffer)))
            = cleanFinalText (bufResponseText sf.linesBuffer) from rfl, hbrt]
          exact cleanFinalText_no_token sf.textBuffer htb_term
  · have heng : (handleStreamingEngine cfg [chunks]).1.output
        = sf.output
          ++ sf.linesBuffer.map
              (fun b => OutEvent.mk b.parts none .exhaustedFlush)
          ++ [exhaustedMarkEvent] := by
      unfold handleStreamingEngine runAttempts
      rw [hrg]
      simp [runAttempts, k2, hdone]
    rw [heng]
    intro ev hev p hp hth
    rcases List.mem_append.mp hev with hev1 | hmark
    · rcases List.mem_append.mp hev1 with hold | hflush
      · exact hmain ev hold p hp hth
      · rcases List.mem_map.mp hflush with ⟨b, hb, rfl⟩
        dsimp only at hp
        rw [(k5 b hb).1] at hp
        rcases List.mem_singleton.mp hp with rfl
        show containsSeq FINISHED_TOKEN (textOrEmpty (mkTextPart b.text)) = false
        by_contra hc
        rw [Bool.not_eq_false] at hc
        have hc' : containsSeq FINISHED_TOKEN b.text = true := by
          simpa [textOrEmpty, mkTextPart] using hc
        rw [containsSeq_iff] at hc'
        obtain ⟨q, hq⟩ := hc'
        obtain ⟨l1, l2, hbuf⟩ := List.append_of_mem hb
        have hk4 : concatTexts l1 ++ (b.text ++ concatTexts l2)
            = sf.textBuffer := by
          rw [← k4, hbuf, concatTexts_append, concatTexts_cons]
        have hocc : occursAt FINISHED_TOKEN sf.textBuffer
            ((concatTexts l1).length + q) := by
          rw [← hk4]
          exact occursAt_append_right (concatTexts l1)
            (occursAt_append_left (concatTexts l2) hq)
        have h1t := htb_term _ hocc
        have hlen2 : sf.textBuffer.length = (concatTexts l1).length
            + b.text.length + (concatTexts l2).length := by
          rw [← hk4]
          simp only [List.length_append]
          omega
        have h3t := occursAt_length (by decide) hq
        have hl2z : (concatTexts l2).length = 0 := by omega
        have hqb : q + FINISHED_TOKEN.length = b.text.length := by omega
        have hsufb : FINISHED_TOKEN <:+ b.text := by
          have hdropeq : FINISHED_TOKEN = b.text.drop q := by
            refine List.IsPrefix.eq_of_length hq ?_
            rw [List.length_drop]
            omega
          refine ⟨b.text.take q, ?_⟩
          rw [hdropeq]
          exact List.take_append_drop q b.text
        have hsuf : FINISHED_TOKEN <:+ sf.textBuffer := by
          obtain ⟨w, hw⟩ := hsufb
          refine ⟨concatTexts l1 ++ w, ?_⟩
          rw [← hk4, List.length_eq_zero.mp hl2z, List.append_nil, ← hw,
            List.append_assoc]
        have hirc := isResponseComplete_of_suffix hsuf
        apply hdone
        unfold doneDecision
        rw [k1, hirc]
        simp
    · rcases List.mem_singleton.mp hmark with rfl
      unfold exhaustedMarkEvent at hp
      dsimp only at hp
      rcases List.mem_singleton.mp hp with rfl
      decide

/-- Witness for `streamingFinished_spec`: one attempt, one chunk, one event
with text `"abc[RESPONSE_FINISHED]"` (the token only at the very end);
every client-visible formal text is FINISHED-free. -/
theorem streamingFinished_spec_witness :
    ((handleStreamingEngine ⟨false, false, false, "T".toList⟩
        [[[[mkTextPart "abc[RESPONSE_FINISHED]".toList]]]]).1.output.all
      (fun ev => ev.parts.all (fun p =>
        p.thought.truthy
          || !containsSeq FINISHED_TOKEN (textOrEmpty p)))) = true := by
  have h := streamingFinished_spec ⟨false, false, false, "T".toList⟩
    [[[mkTextPart "abc[RESPONSE_FINISHED]".toList]]]
    rfl (by decide) (by decide) (by decide)
  rw [List.all_eq_true]
  intro ev hev
  rw [List.all_eq_true]
  intro p hp
  cases ht : p.thought.truthy
  · have hc := h ev hev p hp ht
    rw [hc]
    rfl
  · rfl

/-- At most one occurrence of the BEGIN token. -/
def atMostOneBegin (l : List Char) : Prop :=
  ∀ q1 q2, occursAt BEGIN_TOKEN l q1 → occursAt BEGIN_TOKEN l q2 → q1 = q2

theorem atMostOneBegin_of_prefix {x z : List Char} (h : x <+: z)
    (hz : atMostOneBegin z) : atMostOneBegin x := by
  obtain ⟨w, rfl⟩ := h
  intro q1 q2 h1 h2
  exact hz q1 q2 (occursAt_append_left w h1) (occursAt_append_left w h2)

theorem partOK_of_not_truthy {p : Part} (h : truthyText p = false) :
    containsSeq BEGIN_TOKEN (textOrEmpty p) = false := by
  unfold truthyText at h
  unfold textOrEmpty
  cases hx : p.text with
  | none => decide
  | some t =>
    rw [hx] at h
    have h' : t = [] := by simpa using h
    subst h'
    decide

theorem jsTrim_infix (l : List Char) : ∃ u v, l = u ++ (jsTrim l ++ v) := by
  refine ⟨l.takeWhile jsSpace,
    ((l.dropWhile jsSpace).reverse.takeWhile jsSpace).reverse, ?_⟩
  unfold jsTrim
  have h1 : l = l.takeWhile jsSpace ++ l.dropWhile jsSpace :=
    (List.takeWhile_append_dropWhile jsSpace l).symm
  have h2 : (l.dropWhile jsSpace).reverse
      = (l.dropWhile jsSpace).reverse.takeWhile jsSpace
        ++ (l.dropWhile jsSpace).reverse.dropWhile jsSpace :=
    (List.takeWhile_append_dropWhile jsSpace _).symm
  have h3 : l.dropWhile jsSpace
      = ((l.dropWhile jsSpace).reverse.dropWhile jsSpace).reverse
        ++ ((l.dropWhile jsSpace).reverse.takeWhile jsSpace).reverse := by
    have := congrArg List.reverse h2
    rwa [List.reverse_reverse, List.reverse_append] at this
  rw [← h3, ← h1]

theorem containsSeq_jsTrim {pat l : List Char}
    (h : containsSeq pat l = false) : containsSeq pat (jsTrim l) = false := by
  by_contra hc
  rw [Bool.not_eq_false, containsSeq_iff] at hc
  obtain ⟨q, hq⟩ := hc
  obtain ⟨u, v, hl⟩ := jsTrim_infix l
  have hocc : occursAt pat l (u.length + q) := by
    rw [hl]
    exact occursAt_append_right u (occursAt_append_left v hq)
  have hT : containsSeq pat l = true := (containsSeq_iff _ _).mpr ⟨_, hocc⟩
  rw [hT] at h
  cases h

theorem cleanTransition_reshape_no_begin (w : List Char) :
    containsSeq BEGIN_TOKEN (cleanTransitionText
      (BEGIN_TOKEN ++ jsTrim (jsSplit1 BEGIN_TOKEN w))) = false := by
  unfold cleanTransitionText
  rw [if_pos (by
    rw [List.isPrefixOf_iff_prefix]
    exact List.prefix_append _ _), List.drop_left]
  exact containsSeq_jsTrim
    (containsSeq_splitPre BEGIN_TOKEN (afterFirst BEGIN_TOKEN w) (by decide))

theorem textOfLast_suffix (buf : List BufLine) :
    textOfLast buf <:+ concatTexts buf := by
  unfold textOfLast
  cases hb : buf.getLast? with
  | none => exact List.nil_suffix
  | some b =>
    obtain ⟨l', rfl⟩ := List.getLast?_eq_some_iff.mp hb
    refine ⟨concatTexts l', ?_⟩
    rw [concatTexts_append]
    simp [concatTexts]

theorem textOfLast2_suffix (buf : List BufLine) :
    textOfLast buf.dropLast ++ textOfLast buf <:+ concatTexts buf := by
  cases hb : buf.getLast? with
  | none =>
    have hnil : buf = [] := by
      cases buf with
      | nil => rfl
      | cons x xs => simp [List.getLast?_isSome] at hb
    subst hnil
    exact List.nil_suffix
  | some b =>
    obtain ⟨l', rfl⟩ := List.getLast?_eq_some_iff.mp hb
    rw [List.dropLast_concat]
    have htl : textOfLast (l' ++ [b]) = b.text := by
      unfold textOfLast
      rw [List.getLast?_concat]
    rw [htl]
    obtain ⟨w, hw⟩ := textOfLast_suffix l'
    refine ⟨w, ?_⟩
    rw [concatTexts_append, ← List.append_assoc, hw]
    simp [concatTexts]

theorem suffix_append_right {x y t : List Char} (h : x <:+ y) :
    x ++ t <:+ y ++ t := by
  obtain ⟨w, rfl⟩ := h
  exact ⟨w, (List.append_assoc w x t).symm⟩

/-- A buffered line is harmless for the BEGIN invariant: a transition line
emits `cleanTransitionText` of its text, which must be BEGIN-free; any
other line either has all its truthy texts marked as thought or is a plain
single-text line with BEGIN-free text. -/
def lineOK2 (b : BufLine) : Prop :=
  (b.isTransitionLine = true →
      containsSeq BEGIN_TOKEN (cleanTransitionText b.text) = false)
  ∧ (b.isTransitionLine = false →
      (∀ p ∈ b.parts, truthyText p = true → p.thought.truthy = true)
      ∨ (b.parts = [mkTextPart b.text]
          ∧ containsSeq BEGIN_TOKEN b.text = false))

/-- Every event written by the forwarding loop (`fwd` or `preamble`) has
BEGIN-free formal text. -/
def OutC2 (out : List OutEvent) : Prop :=
  ∀ ev ∈ out, ev.src = .fwd ∨ ev.src = .preamble →
    ∀ p ∈ ev.parts, p.thought.truthy = false →
      containsSeq BEGIN_TOKEN (textOrEmpty p) = false

/-- The state invariant of an engine run with `injectBegin = true` and no
function calls, relative to the raw upstream formal text `R` ingested so
far. -/
def InvC2 (s : StreamState) (R : List Char) : Prop :=
  s.passthroughMode = false
  ∧ s.hasFunctionCallInStream = false
  ∧ (s.isThoughtFinished = true → s.hasGotBeginToken = true)
  ∧ (s.hasGotBeginToken = true → ∃ q, occursAt BEGIN_TOKEN R q)
  ∧ (∀ b ∈ s.linesBuffer, b.isTransitionLine = true →
      s.hasGotBeginToken = true)
  ∧ (s.hasGotBeginToken = false → concatTexts s.linesBuffer <:+ R)
  ∧ (∀ b ∈ s.linesBuffer, lineOK2 b)
  ∧ OutC2 s.output

theorem transitionReshape_snd (d : DetectResult) :
    (transitionReshape d).2
      = BEGIN_TOKEN ++ jsTrim (jsSplit1 BEGIN_TOKEN d.responseText) := rfl

theorem transitionReshape_fst_mem (d : DetectResult) (b : BufLine)
    (hb : b ∈ (transitionReshape d).1) :
    b ∈ d.linesBuffer
    ∨ b = ⟨[Part.mk (some (jsTrim (splitPre BEGIN_TOKEN d.responseText)))
        .jtrue none], false, jsTrim (splitPre BEGIN_TOKEN d.responseText)⟩ := by
  unfold transitionReshape at hb
  dsimp only at hb
  by_cases hp : 0 < (splitPre BEGIN_TOKEN d.responseText).length
  · rw [if_pos hp] at hb
    rcases List.mem_append.mp hb with hb' | hb'
    · exact Or.inl hb'
    · exact Or.inr (List.mem_singleton.mp hb')
  · rw [if_neg hp] at hb
    exact Or.inl hb

/-- Case analysis of the detection block with the data the BEGIN invariant
needs: either nothing happens, or a transition is detected from a no-BEGIN
no-thought-finished state, the result text contains BEGIN and is a suffix
of the buffered texts extended by the event text. -/
theorem detectStep_cases2 (s : StreamState) (t : List Char) :
    detectStep s t = ⟨s.hasGotBeginToken, false, t, s.linesBuffer⟩
    ∨ ((detectStep s t).hasGotBeginToken = true
        ∧ (detectStep s t).isTransitionLine = true
        ∧ (∀ b ∈ (detectStep s t).linesBuffer, b ∈ s.linesBuffer)
        ∧ s.hasGotBeginToken = false
        ∧ s.isThoughtFinished = false
        ∧ containsSeq BEGIN_TOKEN (detectStep s t).responseText = true
        ∧ (detectStep s t).responseText <:+ concatTexts s.linesBuffer ++ t) := by
  unfold detectStep
  dsimp only
  split_ifs with c1 g1 c2 g2 c3 g3
  · rw [isFormalResponseStarted] at c1
    simp only [Bool.and_eq_true, Bool.not_eq_true'] at c1
    refine Or.inr ⟨rfl, rfl, fun b hb => hb, c1.1.2, c1.1.1, c1.2, ?_⟩
    exact ⟨concatTexts s.linesBuffer, rfl⟩
  · exact Or.inl rfl
  · simp only [Bool.and_eq_true, Bool.not_eq_true'] at c2
    rw [isFormalResponseStarted] at c2
    refine Or.inr ⟨rfl, rfl, fun b hb => (List.dropLast_sublist _).mem hb,
      c2.1.1.2, c2.1.1.1, c2.2, ?_⟩
    exact suffix_append_right (textOfLast_suffix s.linesBuffer)
  · exact Or.inl rfl
  · simp only [Bool.and_eq_true, Bool.not_eq_true'] at c3
    rw [isFormalResponseStarted] at c3
    refine Or.inr ⟨rfl, rfl,
      fun b hb => (List.dropLast_sublist _).mem
        ((List.dropLast_sublist _).mem hb),
      c3.1.1.2, c3.1.1.1, c3.2, ?_⟩
    have h2 := textOfLast2_suffix s.linesBuffer
    exact suffix_append_right h2
  · exact Or.inl rfl
  · exact Or.inl rfl

theorem forwardStep_pass (cfg : StreamCfg) (lineObj : BufLine)
    (s : StreamState) :
    (forwardStep cfg lineObj s).passthroughMode = s.passthroughMode := by
  unfold forwardStep
  dsimp only
  split_ifs <;> rfl

theorem forwardStep_hasFC (cfg : StreamCfg) (lineObj : BufLine)
    (s : StreamState) :
    (forwardStep cfg lineObj s).hasFunctionCallInStream
      = s.hasFunctionCallInStream := by
  unfold forwardStep
  dsimp only
  split_ifs <;> rfl

theorem forwardStep_output_sub (cfg : StreamCfg) (lineObj : BufLine)
    (s : StreamState) :
    ∀ ev ∈ (forwardStep cfg lineObj s).output,
      ev ∈ s.output
      ∨ ev = OutEvent.mk [Part.mk (some cfg.startOfThought) .jtrue none]
          none .preamble
      ∨ (lineObj.isTransitionLine = true
          ∧ ev = OutEvent.mk [mkTextPart (cleanTransitionText lineObj.text)]
              none .fwd)
      ∨ (lineObj.isTransitionLine = false
          ∧ ev = OutEvent.mk lineObj.parts none .fwd) := by
  intro ev hev
  unfold forwardStep at hev
  dsimp only at hev
  by_cases hp : (s.isFirstOutput && cfg.isIncludeThoughts) = true <;>
    [rw [if_pos hp] at hev; rw [if_neg hp] at hev] <;>
  by_cases ht : lineObj.isTransitionLine = true
  · rw [if_pos ht] at hev
    dsimp only at hev
    rcases List.mem_append.mp hev with h1 | h2
    · rcases List.mem_append.mp h1 with h3 | h4
      · exact Or.inl h3
      · exact Or.inr (Or.inl (List.mem_singleton.mp h4))
    · exact Or.inr (Or.inr (Or.inl ⟨ht, List.mem_singleton.mp h2⟩))
  · rw [if_neg ht] at hev
    by_cases hw : (cfg.isIncludeThoughts
        || ({ s with output := s.output
            ++ [OutEvent.mk [Part.mk (some cfg.startOfThought) .jtrue none]
              none .preamble] } : StreamState).isThoughtFinished) = true
    · rw [if_pos hw] at hev
      dsimp only at hev
      rcases List.mem_append.mp hev with h1 | h2
      · rcases List.mem_append.mp h1 with h3 | h4
        · exact Or.inl h3
        · exact Or.inr (Or.inl (List.mem_singleton.mp h4))
      · exact Or.inr (Or.inr (Or.inr
          ⟨Bool.not_eq_true _ ▸ ht, List.mem_singleton.mp h2⟩))
    · rw [if_neg hw] at hev
      dsimp only at hev
      rcases List.mem_append.mp hev with h1 | h2
      · exact Or.inl h1
      · exact Or.inr (Or.inl (List.mem_singleton.mp h2))
  · rw [if_pos ht] at hev
    dsimp only at hev
    rcases List.mem_append.mp hev with h1 | h2
    · exact Or.inl h1
    · exact Or.inr (Or.inr (Or.inl ⟨ht, List.mem_singleton.mp h2⟩))
  · rw [if_neg ht] at hev
    by_cases hw : (cfg.isIncludeThoughts || s.isThoughtFinished) = true
    · rw [if_pos hw] at hev
      dsimp only at hev
      rcases List.mem_append.mp hev with h1 | h2
      · exact Or.inl h1
      · exact Or.inr (Or.inr (Or.inr
          ⟨Bool.not_eq_true _ ▸ ht, List.mem_singleton.mp h2⟩))
    · rw [if_neg hw] at hev
      exact Or.inl hev

theorem invC2_ingest {s : StreamState} {R : List Char} (h : InvC2 s R)
    (ev : List Part) (hfc : ∀ p ∈ ev, p.functionCall = none)
    (hone : atMostOneBegin (R ++ eventText ev)) :
    InvC2 (ingestEvent s ev) (R ++ eventText ev) := by
  obtain ⟨c1, c2, c3, c4, c5, c6, c7, c8⟩ := h
  have hpfc : (parseParts (some ev)).hasFunctionCall = false :=
    parseParts_hasFC_none ev hfc
  unfold ingestEvent
  dsimp only
  by_cases hc1 : ((parseParts (some ev)).hasThought
      && (parseParts (some ev)).responseText.isEmpty
      && !(parseParts (some ev)).hasFunctionCall) = true
  · rw [if_pos hc1]
    have hemp : eventText ev = [] := by
      rw [Bool.and_eq_true, Bool.and_eq_true] at hc1
      exact List.isEmpty_iff.mp hc1.1.2
    rw [hemp, List.append_nil]
    refine ⟨c1, ?_, c3, c4, c5, c6, c7, c8⟩
    show (s.hasFunctionCallInStream
        || (parseParts (some ev)).hasFunctionCall) = false
    rw [c2, hpfc]
    rfl
  · rw [if_neg hc1]
    have hc2 : ¬ ((s.hasFunctionCallInStream
        || (parseParts (some ev)).hasFunctionCall)
          && !s.passthroughMode) = true := by
      rw [c2, hpfc]
      simp
    rw [if_neg hc2]
    rw [if_neg (by rw [c1]; simp)]
    have hcases := detectStep_cases2
      { s with hasFunctionCallInStream :=
          s.hasFunctionCallInStream || (parseParts (some ev)).hasFunctionCall }
      (parseParts (some ev)).responseText
    generalize hD : detectStep
      { s with hasFunctionCallInStream :=
          s.hasFunctionCallInStream || (parseParts (some ev)).hasFunctionCall }
      (parseParts (some ev)).responseText = D at hcases ⊢
    have hfil : ev.filter (fun p => p.functionCall.isSome) = [] := by
      rw [List.filter_eq_nil_iff]
      intro p hp
      simp [hfc p hp]
    rw [hfil]
    rcases hcases with hnod | ⟨hdg, hdt, hdb, hsg, hsi, hct, hsuf⟩
    · subst hnod
      dsimp only
      refine ⟨c1, ?_, c3, ?_, ?_, ?_, ?_, c8⟩
      · show (s.hasFunctionCallInStream
            || (parseParts (some ev)).hasFunctionCall) = false
        rw [c2, hpfc]
        rfl
      · intro hg
        obtain ⟨q, hq⟩ := c4 hg
        exact ⟨q, occursAt_append_left _ hq⟩
      · intro b hb hbt
        rcases List.mem_append.mp hb with hb' | hb'
        · exact c5 b hb' hbt
        · rcases List.mem_singleton.mp hb' with rfl
          exact absurd hbt Bool.false_ne_true
      · intro hg
        have hsfx := c6 hg
        obtain ⟨w, hw⟩ := hsfx
        refine ⟨w, ?_⟩
        show w ++ concatTexts (s.linesBuffer ++ [_]) = R ++ eventText ev
        rw [concatTexts_append, ← List.append_assoc, hw]
        simp [concatTexts, eventText]
      · intro b hb
        rcases List.mem_append.mp hb with hb' | hb'
        · exact c7 b hb'
        · rcases List.mem_singleton.mp hb' with rfl
          refine ⟨fun hbt => absurd hbt Bool.false_ne_true, fun _ => ?_⟩
          by_cases hmk : (!s.isThoughtFinished && !s.hasGotBeginToken) = true
          · rw [if_pos hmk]
            left
            intro p hp htp
            rcases List.mem_map.mp hp with ⟨p0, hp0, rfl⟩
            by_cases htp0 : truthyText p0 = true
            · rw [if_pos htp0]
              rfl
            · rw [if_neg htp0] at htp ⊢
              exact absurd htp htp0
          · rw [if_neg hmk]
            right
            refine ⟨rfl, ?_⟩
            have hg : s.hasGotBeginToken = true := by
              cases h0 : s.isThoughtFinished with
              | true => exact c3 h0
              | false =>
                cases h1 : s.hasGotBeginToken with
                | true => rfl
                | false => exact absurd (by rw [h0, h1]; rfl) hmk
            obtain ⟨q1, hq1⟩ := c4 hg
            by_contra hcb
            rw [Bool.not_eq_false, containsSeq_iff] at hcb
            obtain ⟨q2, hq2⟩ := hcb
            have hq1' := occursAt_append_left (eventText ev) hq1
            have hq2' : occursAt BEGIN_TOKEN (R ++ eventText ev)
                (R.length + q2) := occursAt_append_right R hq2
            have heq := hone q1 (R.length + q2) hq1' hq2'
            have hl1 := occursAt_length (by decide) hq1
            have hB16 : 0 < BEGIN_TOKEN.length := by decide
            omega
    · obtain ⟨dg, dt, dtx, dbuf⟩ := D
      dsimp only at hdg hdt hdb hsg hsi hct hsuf ⊢
      subst hdg
      subst hdt
      rw [hsi]
      refine ⟨c1, ?_, fun _ => rfl, ?_, fun b hb hbt => rfl, ?_, ?_, c8⟩
      · show (s.hasFunctionCallInStream
            || (parseParts (some ev)).hasFunctionCall) = false
        rw [c2, hpfc]
        rfl
      · intro _
        obtain ⟨q, hq⟩ := (containsSeq_iff _ _).mp hct
        obtain ⟨w1, hw1⟩ := hsuf
        obtain ⟨w2, hw2⟩ := c6 hsg
        have hR : R ++ eventText ev = (w2 ++ w1) ++ dtx := by
          show R ++ (parseParts (some ev)).responseText = _
          rw [← hw2, List.append_assoc, ← hw1, ← List.append_assoc]
        refine ⟨(w2 ++ w1).length + q, ?_⟩
        rw [hR]
        exact occursAt_append_right _ hq
      · intro hg
        exact absurd hg (by simp)
      · intro b hb
        rcases List.mem_append.mp hb with hb' | hb'
        · rcases transitionReshape_fst_mem ⟨true, true, dtx, dbuf⟩ b hb'
            with hmem | rfl
          · exact c7 b (hdb b hmem)
          · refine ⟨fun hbt => absurd hbt Bool.false_ne_true, fun _ => ?_⟩
            left
            intro p hp htp
            rcases List.mem_singleton.mp hp with rfl
            rfl
        · rcases List.mem_singleton.mp hb' with rfl
          refine ⟨fun _ => ?_, fun hbt => absurd hbt (by simp)⟩
          exact cleanTransition_reshape_no_begin dtx

theorem invC2_forwardAux (cfg : StreamCfg) (safe : Nat) :
    ∀ (buf : List BufLine) (fwd : Nat) (s : StreamState),
    (∀ b ∈ buf, lineOK2 b) →
    (∀ b ∈ buf, b.isTransitionLine = true → s.hasGotBeginToken = true) →
    OutC2 s.output →
    ((forwardAux cfg safe fwd buf s).passthroughMode = s.passthroughMode
    ∧ (forwardAux cfg safe fwd buf s).hasFunctionCallInStream
        = s.hasFunctionCallInStream
    ∧ (forwardAux cfg safe fwd buf s).hasGotBeginToken = s.hasGotBeginToken
    ∧ ((forwardAux cfg safe fwd buf s).isThoughtFinished = true →
        s.isThoughtFinished = true ∨ s.hasGotBeginToken = true)
    ∧ (∃ pre, buf = pre ++ (forwardAux cfg safe fwd buf s).linesBuffer)
    ∧ OutC2 (forwardAux cfg safe fwd buf s).output) := by
  intro buf
  induction buf with
  | nil =>
    intro fwd s hOK hbg hout
    exact ⟨rfl, rfl, rfl, fun hitf => Or.inl hitf, ⟨[], rfl⟩, hout⟩
  | cons lineObj rest ih =>
    intro fwd s hOK hbg hout
    unfold forwardAux
    by_cases hfits : fwd + lineObj.text.length ≤ safe
    · rw [if_pos hfits]
      have hlOK := hOK lineObj (List.mem_cons_self _ _)
      have hout1 : OutC2 (forwardStep cfg lineObj s).output := by
        intro ev hev hsrc p hp hth
        rcases forwardStep_output_sub cfg lineObj s ev hev with
          hold | hpre | ⟨hlt, hevt⟩ | ⟨hlf, hevt⟩
        · exact hout ev hold hsrc p hp hth
        · subst hpre
          dsimp only at hp
          rcases List.mem_singleton.mp hp with rfl
          exact absurd hth (by simp [JsVal.truthy])
        · subst hevt
          dsimp only at hp
          rcases List.mem_singleton.mp hp with rfl
          have hfree := hlOK.1 hlt
          simpa [textOrEmpty, mkTextPart] using hfree
        · subst hevt
          dsimp only at hp
          rcases hlOK.2 hlf with hthought | ⟨hparts, hfree⟩
          · by_cases htp : truthyText p = true
            · have hx := hthought p hp htp
              rw [hth] at hx
              cases hx
            · exact partOK_of_not_truthy (by simpa using htp)
          · rw [hparts] at hp
            rcases List.mem_singleton.mp hp with rfl
            simpa [textOrEmpty, mkTextPart] using hfree
      have hrec := ih (fwd + lineObj.text.length) (forwardStep cfg lineObj s)
        (fun b hb => hOK b (List.mem_cons_of_mem _ hb))
        (fun b hb hbt => by
          rw [forwardStep_hasGot]
          exact hbg b (List.mem_cons_of_mem _ hb) hbt)
        hout1
      refine ⟨hrec.1.trans (forwardStep_pass cfg lineObj s),
        hrec.2.1.trans (forwardStep_hasFC cfg lineObj s),
        hrec.2.2.1.trans (forwardStep_hasGot cfg lineObj s),
        ?_, ?_, hrec.2.2.2.2.2⟩
      · intro hitf
        rcases hrec.2.2.2.1 hitf with h1 | h2
        · rw [forwardStep_itf, Bool.or_eq_true] at h1
          rcases h1 with ht | hi
          · exact Or.inr (hbg lineObj (List.mem_cons_self _ _) ht)
          · exact Or.inl hi
        · rw [forwardStep_hasGot] at h2
          exact Or.inr h2
      · obtain ⟨pre, hpre⟩ := hrec.2.2.2.2.1
        refine ⟨lineObj :: pre, ?_⟩
        rw [List.cons_append, ← hpre]
    · rw [if_neg hfits]
      exact ⟨rfl, rfl, rfl, fun hitf => Or.inl hitf, ⟨[], rfl⟩, hout⟩

theorem invC2_postChunk (cfg : StreamCfg) {s : StreamState} {R : List Char}
    (h : InvC2 s R) :
    (∀ s', postChunk cfg s = .continueStream s' → InvC2 s' R)
    ∧ (∀ s', postChunk cfg s = .abortAttempt s' → InvC2 s' R) := by
  obtain ⟨c1, c2, c3, c4, c5, c6, c7, c8⟩ := h
  unfold postChunk
  split_ifs with hlen hghost hbegin
  · refine ⟨fun s' hc => absurd hc (by simp), fun s' hc => ?_⟩
    injection hc with hc
    exact hc ▸ ⟨c1, c2, c3, c4, c5, c6, c7, c8⟩
  · refine ⟨fun s' hc => absurd hc (by simp), fun s' hc => ?_⟩
    injection hc with hc
    exact hc ▸ ⟨c1, c2, c3, c4, c5, c6, c7, c8⟩
  · refine ⟨fun s' hc => ?_, fun s' hc => absurd hc (by simp)⟩
    injection hc with hc
    have hfa := invC2_forwardAux cfg (s.textBuffer.length - LOOKAHEAD_SIZE)
      s.linesBuffer 0 s c7 c5 c8
    obtain ⟨f1, f2, f3, f4, ⟨pre, hpre⟩, f6⟩ := hfa
    rw [← hc]
    refine ⟨f1.trans c1, f2.trans c2, ?_, ?_, ?_, ?_, ?_, f6⟩
    · intro hitf
      rcases f4 hitf with h1 | h2
      · rw [f3]
        exact c3 h1
      · rw [f3]
        exact h2
    · intro hg
      rw [f3] at hg
      exact c4 hg
    · intro b hb hbt
      rw [f3]
      exact c5 b (hpre ▸ List.mem_append_right pre hb) hbt
    · intro hg
      rw [f3] at hg
      have hsfx := c6 hg
      obtain ⟨w, hw⟩ := hsfx
      rw [hpre, concatTexts_append] at hw
      exact ⟨w ++ concatTexts pre, by rw [List.append_assoc, hw]⟩
    · intro b hb
      exact c7 b (hpre ▸ List.mem_append_right pre hb)
  · refine ⟨fun s' hc => ?_, fun s' hc => absurd hc (by simp)⟩
    injection hc with hc
    exact hc ▸ ⟨c1, c2, c3, c4, c5, c6, c7, c8⟩

theorem invC2_runChunks (cfg : StreamCfg) :
    ∀ (chunks : List (List (List Part))) (s : StreamState) (R : List Char),
    InvC2 s R →
    (∀ chunk ∈ chunks, ∀ ev ∈ chunk, ∀ p ∈ ev, p.functionCall = none) →
    atMostOneBegin (R ++ chunksText chunks) →
    ∃ R', InvC2 (runChunks cfg chunks s).1 R' := by
  intro chunks
  induction chunks with
  | nil =>
    intro s R h hfc hone
    exact ⟨R, h⟩
  | cons chunk rest ih =>
    intro s R h hfc hone
    have hing : InvC2 (chunk.foldl ingestEvent s) (R ++ chunkText chunk) := by
      have hfc1 := hfc chunk (List.mem_cons_self _ _)
      have honec : atMostOneBegin ((R ++ chunkText chunk)) := by
        refine atMostOneBegin_of_prefix ⟨chunksText rest, ?_⟩ hone
        rw [List.append_assoc]
        congr 1
      clear ih hfc hone
      induction chunk generalizing s R with
      | nil =>
        have : R ++ chunkText [] = R := by simp [chunkText]
        rw [this]
        exact h
      | cons ev evs ihev =>
        have honee : atMostOneBegin (R ++ eventText ev) := by
          refine atMostOneBegin_of_prefix ⟨chunkText evs, ?_⟩ honec
          rw [List.append_assoc]
          congr 1
        have hstep := invC2_ingest h ev (hfc1 ev (List.mem_cons_self _ _))
          honee
        have hres := ihev (ingestEvent s ev) (R ++ eventText ev) hstep
          (fun e he => hfc1 e (List.mem_cons_of_mem _ he))
          (by
            rw [List.append_assoc]
            have : eventText ev ++ chunkText evs = chunkText (ev :: evs) := by
              simp [chunkText]
            rw [this]
            exact honec)
        have heq : R ++ eventText ev ++ chunkText evs
            = R ++ chunkText (ev :: evs) := by
          rw [List.append_assoc]
          congr 1
        rw [heq] at hres
        exact hres
    unfold runChunks
    cases hpc : processChunk cfg s chunk with
    | continueStream s' =>
      have hpc' : postChunk cfg (chunk.foldl ingestEvent s)
          = .continueStream s' := hpc
      have hpost := (invC2_postChunk cfg hing).1 s' hpc'
      exact ih s' (R ++ chunkText chunk) hpost
        (fun c hc => hfc c (List.mem_cons_of_mem _ hc))
        (by
          rw [List.append_assoc]
          have : chunkText chunk ++ chunksText rest
              = chunksText (chunk :: rest) := by
            simp [chunksText]
          rw [this]
          exact hone)
    | abortAttempt s' =>
      have hpc' : postChunk cfg (chunk.foldl ingestEvent s)
          = .abortAttempt s' := hpc
      exact ⟨R ++ chunkText chunk, (invC2_postChunk cfg hing).2 s' hpc'⟩

/-- **C2** (amended): for an engine-engaged request with begin-sentinel
injection enabled, no function calls in the stream, and at most one BEGIN
occurrence in the total upstream formal text, every event written by the
FORWARDING loop (`fwd`, plus the thought preamble) has BEGIN-free formal
text: thought-phase lines are emitted with their texts marked as thoughts,
the transition event carries the cleaned text (prefix re-emitted as a
thought line, leading BEGIN stripped), and post-transition lines cannot
contain a second occurrence.  (As stated the claim is false: a second
BEGIN after the transition is forwarded verbatim, see the counterexample;
and the terminal/exhausted flush paths re-emit the stored transition text,
which starts with BEGIN, uncleaned.) -/
theorem streamingBegin_spec (cfg : StreamCfg) (chunks : List (List (List Part)))
    (hinj : cfg.injectBegin = true)
    (hnofc : ∀ chunk ∈ chunks, ∀ ev ∈ chunk, ∀ p ∈ ev, p.functionCall = none)
    (hone : ∀ q1 < (chunksText chunks).length,
        ∀ q2 < (chunksText chunks).length,
        occursAt BEGIN_TOKEN (chunksText chunks) q1 →
        occursAt BEGIN_TOKEN (chunksText chunks) q2 → q1 = q2) :
    ∀ ev ∈ (handleStreamingEngine cfg [chunks]).1.output,
      ev.src = .fwd ∨ ev.src = .preamble →
      ∀ p ∈ ev.parts, p.thought.truthy = false →
        containsSeq BEGIN_TOKEN (textOrEmpty p) = false := by
  have hone' : atMostOneBegin (chunksText chunks) := by
    intro q1 q2 h1 h2
    have l1 := occursAt_length (by decide) h1
    have l2 := occursAt_length (by decide) h2
    have hB : 0 < BEGIN_TOKEN.length := by decide
    exact hone q1 (by omega) q2 (by omega) h1 h2
  have hinit : InvC2 (resetAttempt (initialStreamState cfg)) [] := by
    refine ⟨rfl, rfl, ?_, ?_, fun b hb => absurd hb (List.not_mem_nil b),
      fun _ => ⟨[], rfl⟩, fun b hb => absurd hb (List.not_mem_nil b),
      fun e he => absurd he (List.not_mem_nil e)⟩
    · intro hitf
      have hx : (!cfg.injectBegin) = true := hitf
      rw [hinj] at hx
      exact absurd hx (by decide)
    · intro hg
      exact absurd hg Bool.false_ne_true
  obtain ⟨R', hinv⟩ := invC2_runChunks cfg chunks
    (resetAttempt (initialStreamState cfg)) [] hinit hnofc hone'
  rcases hrg : runChunks cfg chunks (resetAttempt (initialStreamState cfg))
    with ⟨sf, ab⟩
  rw [hrg] at hinv
  obtain ⟨c1, c2, c3, c4, c5, c6, c7, c8⟩ := hinv
  dsimp only at c1 c2 c3 c4 c5 c6 c7 c8
  cases ab with
  | true =>
    have heng : (handleStreamingEngine cfg [chunks]).1.output
        = sf.output
          ++ sf.linesBuffer.map
              (fun b => OutEvent.mk b.parts none .exhaustedFlush)
          ++ [exhaustedMarkEvent] := by
      unfold handleStreamingEngine runAttempts
      rw [hrg]
      simp [runAttempts]
    rw [heng]
    intro ev hev hsrc p hp hth
    rcases List.mem_append.mp hev with h1 | h2
    · rcases List.mem_append.mp h1 with hold | hflush
      · exact c8 ev hold hsrc p hp hth
      · rcases List.mem_map.mp hflush with ⟨b, hb, rfl⟩
        rcases hsrc with hs | hs <;> simp [terminalStopEvent, exhaustedMarkEvent] at hs
    · rcases List.mem_singleton.mp h2 with rfl
      rcases hsrc with hs | hs <;> simp [terminalStopEvent, exhaustedMarkEvent] at hs
  | false =>
    by_cases hd : doneDecision cfg sf = true
    · have heng : (handleStreamingEngine cfg [chunks]).1.output
          = sf.output ++ [terminalStopEvent sf.linesBuffer] := by
        unfold handleStreamingEngine runAttempts
        rw [hrg]
        simp [runAttempts, c1, hd]
      rw [heng]
      intro ev hev hsrc p hp hth
      rcases List.mem_append.mp hev with hold | hterm
      · exact c8 ev hold hsrc p hp hth
      · rcases List.mem_singleton.mp hterm with rfl
        rcases hsrc with hs | hs <;> simp [terminalStopEvent, exhaustedMarkEvent] at hs
    · have heng : (handleStreamingEngine cfg [chunks]).1.output
          = sf.output
            ++ sf.linesBuffer.map
                (fun b => OutEvent.mk b.parts none .exhaustedFlush)
            ++ [exhaustedMarkEvent] := by
        unfold handleStreamingEngine runAttempts
        rw [hrg]
        simp [runAttempts, c1, hd]
      rw [heng]
      intro ev hev hsrc p hp hth
      rcases List.mem_append.mp hev with h1 | h2
      · rcases List.mem_append.mp h1 with hold | hflush
        · exact c8 ev hold hsrc p hp hth
        · rcases List.mem_map.mp hflush with ⟨b, hb, rfl⟩
          rcases hsrc with hs | hs <;> simp [terminalStopEvent, exhaustedMarkEvent] at hs
      · rcases List.mem_singleton.mp h2 with rfl
        rcases hsrc with hs | hs <;> simp [terminalStopEvent, exhaustedMarkEvent] at hs

/-- Witness for `streamingBegin_spec`: the thought text and the single
BEGIN with a formal tail, split over two chunks; every `fwd`/`preamble`
event is BEGIN-free. -/
theorem streamingBegin_spec_witness :
    ((handleStreamingEngine ⟨true, false, false, "T".toList⟩
        [[[[mkTextPart "thinking...[RESPONSE_BEGIN]hello".toList]],
          [[mkTextPart "world, how are you today??????".toList]]]]).1.output.all
      (fun ev =>
        !(ev.src == OutSrc.fwd || ev.src == OutSrc.preamble)
          || ev.parts.all (fun p =>
              p.thought.truthy
                || !containsSeq BEGIN_TOKEN (textOrEmpty p)))) = true := by
  have h := streamingBegin_spec ⟨true, false, false, "T".toList⟩
    [[[mkTextPart "thinking...[RESPONSE_BEGIN]hello".toList]],
     [[mkTextPart "world, how are you today??????".toList]]]
    rfl (by decide) (by decide)
  rw [List.all_eq_true]
  intro ev hev
  by_cases hs : (ev.src == OutSrc.fwd || ev.src == OutSrc.preamble) = true
  · rw [hs]
    simp only [Bool.not_true, Bool.false_or]
    rw [List.all_eq_true]
    intro p hp
    have hsrc : ev.src = .fwd ∨ ev.src = .preamble := by
      rw [Bool.or_eq_true] at hs
      rcases hs with h1 | h1
      · exact Or.inl (beq_iff_eq.mp h1)
      · exact Or.inr (beq_iff_eq.mp h1)
    cases ht : p.thought.truthy
    · have hc := h ev hev hsrc p hp ht
      rw [hc]
      rfl
    · rfl
  · have hs' : (ev.src == OutSrc.fwd || ev.src == OutSrc.preamble) = false := by
      simpa using hs
    rw [hs']
    rfl

end GeminiAntiblock
